import Mathlib

/-!
Verification of the layout / search subsystem of the book-of-mormon-visualizer
repository.  The definitions below are shallow embeddings of the JavaScript
source: scores and coordinates are modelled as rationals, typed arrays as
lists, and the imperative loops as structurally recursive functions (loops
whose progress measure is not structural carry an explicit fuel argument that
is always instantiated large enough).
-/

namespace BoMViz

/-- A scored search result, `{ verseIndex, score }` in the source. -/
structure Item where
  verseIndex : Int
  score : ℚ
deriving DecidableEq, Repr

instance : Inhabited Item := ⟨⟨0, 0⟩⟩

/-- Array indexing `heap[i]`, with the default item for out-of-range reads. -/
def getI (h : List Item) (i : Nat) : Item := h.getD i default

/-- The three-line swap idiom `temp = heap[i]; heap[i] = heap[j]; heap[j] = temp`. -/
def swapAt (h : List Item) (i j : Nat) : List Item :=
  (h.set i (getI h j)).set j (getI h i)

/-- The sift-up loop of `heapPush` (semanticSearch.js): while the parent has a
strictly larger score, swap with the parent.  `fuel` bounds the iteration count
and is always called with at least `index + 1`. -/
def siftUpF : Nat → List Item → Nat → List Item
  | 0, h, _ => h
  | _+1, h, 0 => h
  | fuel+1, h, j+1 =>
    let index := j + 1
    let parent := (index - 1) / 2
    if (getI h parent).score ≤ (getI h index).score then h
    else siftUpF fuel (swapAt h parent index) parent

/-- `heapPush` from semanticSearch.js: append, then sift up from the last slot. -/
def heapPush (h : List Item) (item : Item) : List Item :=
  siftUpF (h.length + 1) (h ++ [item]) h.length

/-- The first selection step of the `heapify` loop body: move from `index` to
the left child if it is in range and strictly smaller. -/
def pick1 (h : List Item) (index : Nat) : Nat :=
  if 2*index + 1 < h.length ∧ (getI h (2*index + 1)).score < (getI h index).score
  then 2*index + 1 else index

/-- The smallest-child selection of the `heapify` loop body: after `pick1`,
move to the right child if it is in range and strictly smaller than the
current pick. -/
def smallestIdx (h : List Item) (index : Nat) : Nat :=
  if 2*index + 2 < h.length ∧ (getI h (2*index + 2)).score < (getI h (pick1 h index)).score
  then 2*index + 2 else pick1 h index

/-- The `heapify` sift-down loop of semanticSearch.js.  `fuel` bounds the
iteration count and is always called with at least `h.length`. -/
def heapifyF : Nat → List Item → Nat → List Item
  | 0, h, _ => h
  | fuel+1, h, index =>
    let smallest := smallestIdx h index
    if smallest = index then h
    else heapifyF fuel (swapAt h index smallest) smallest

/-- JavaScript `heap[0] = item` : overwrites slot 0, extending an empty array. -/
def jsSet0 (h : List Item) (item : Item) : List Item :=
  match h with
  | [] => [item]
  | _ :: t => item :: t

/-- `heapReplaceRoot` from semanticSearch.js: overwrite the root, sift down. -/
def heapReplaceRoot (h : List Item) (item : Item) : List Item :=
  heapifyF (jsSet0 h item).length (jsSet0 h item) 0

/-- `j` is a child slot of `i` in the implicit binary tree on array indices. -/
def childEdge (i j : Nat) : Prop := j = 2*i + 1 ∨ j = 2*i + 2

/-- The binary min-heap shape invariant: every parent scores at most its children. -/
def HeapProp (h : List Item) : Prop :=
  ∀ i j, childEdge i j → j < h.length → (getI h i).score ≤ (getI h j).score

/-! ### Index arithmetic on the implicit binary tree -/

theorem childEdge_parent {j : Nat} (hj : 0 < j) : childEdge ((j - 1) / 2) j := by
  rcases Nat.even_or_odd (j - 1) with he | ho
  · left
    obtain ⟨m, hm⟩ := he
    omega
  · right
    obtain ⟨m, hm⟩ := ho
    omega

theorem childEdge_lt {i j : Nat} (h : childEdge i j) : i < j := by
  rcases h with h | h <;> omega

theorem childEdge_parent_eq {i j : Nat} (h : childEdge i j) : i = (j - 1) / 2 := by
  rcases h with h | h <;> omega

/-! ### Basic facts about list indexing, `List.set` and `swapAt` -/

theorem getI_set_self {h : List Item} {j : Nat} (hj : j < h.length) (x : Item) :
    getI (h.set j x) j = x := by
  unfold getI
  rw [List.getD_eq_getElem?_getD, List.getElem?_set_self hj]
  rfl

theorem getI_set_ne {h : List Item} {j k : Nat} (hkj : k ≠ j) (x : Item) :
    getI (h.set j x) k = getI h k := by
  unfold getI
  rw [List.getD_eq_getElem?_getD, List.getElem?_set_ne (Ne.symm hkj),
    List.getD_eq_getElem?_getD]

theorem length_swapAt (h : List Item) (i j : Nat) :
    (swapAt h i j).length = h.length := by
  simp [swapAt]

theorem getI_swapAt_fst {h : List Item} {i j : Nat} (hij : i ≠ j) (hi : i < h.length) :
    getI (swapAt h i j) i = getI h j := by
  unfold swapAt
  rw [getI_set_ne hij, getI_set_self hi]

theorem getI_swapAt_snd {h : List Item} {i j : Nat} (hj : j < h.length) :
    getI (swapAt h i j) j = getI h i := by
  unfold swapAt
  have hj' : j < (h.set i (getI h j)).length := by simpa using hj
  rw [getI_set_self hj']

theorem getI_swapAt_other {h : List Item} {i j k : Nat} (hki : k ≠ i) (hkj : k ≠ j) :
    getI (swapAt h i j) k = getI h k := by
  unfold swapAt
  rw [getI_set_ne hkj, getI_set_ne hki]

theorem set_eq_take_cons_drop :
    ∀ (l : List Item) (k : Nat), k < l.length → ∀ (b : Item),
      l.set k b = l.take k ++ b :: l.drop (k + 1)
  | [], k, hk, b => by simp at hk
  | a :: t, 0, _, b => by simp
  | a :: t, k + 1, hk, b => by
    have ht : k < t.length := by simpa using hk
    simp [set_eq_take_cons_drop t k ht b]

theorem getI_eq_getElem {l : List Item} {k : Nat} (hk : k < l.length) :
    getI l k = l[k] := by
  unfold getI
  rw [List.getD_eq_getElem?_getD, List.getElem?_eq_getElem hk]
  rfl

theorem cons_eraseIdx_perm {l : List Item} {k : Nat} (hk : k < l.length) :
    (getI l k :: l.eraseIdx k).Perm l := by
  rw [getI_eq_getElem hk, List.eraseIdx_eq_take_drop_succ]
  have p1 := (@List.perm_middle _ l[k] (l.take k) (l.drop (k + 1))).symm
  have p3 : (l.take k ++ l[k] :: l.drop (k + 1)).Perm l := by
    rw [List.getElem_cons_drop l k hk, List.take_append_drop]
  exact p1.trans p3

theorem set_perm_cons_eraseIdx {l : List Item} {k : Nat} (hk : k < l.length) (b : Item) :
    (l.set k b).Perm (b :: l.eraseIdx k) := by
  rw [set_eq_take_cons_drop l k hk b, List.eraseIdx_eq_take_drop_succ]
  exact List.perm_middle

theorem swapAt_perm : ∀ (h : List Item) (i j : Nat), i < j → j < h.length →
    (swapAt h i j).Perm h
  | [], _, j, _, hj => by simp at hj
  | _ :: _, _, 0, hij, _ => absurd hij (by omega)
  | a :: t, 0, j + 1, _, hj => by
    have hjt : j < t.length := by simpa using hj
    show ((((a :: t).set 0 (getI (a :: t) (j + 1)))).set (j + 1) (getI (a :: t) 0)).Perm
      (a :: t)
    have h0 : getI (a :: t) (j + 1) = getI t j := rfl
    have h2 : getI (a :: t) 0 = a := rfl
    rw [h0, h2]
    show (getI t j :: t.set j a).Perm (a :: t)
    have p1 : (t.set j a).Perm (a :: t.eraseIdx j) := set_perm_cons_eraseIdx hjt a
    have p2 := p1.cons (getI t j)
    have p3 : (getI t j :: a :: t.eraseIdx j).Perm (a :: getI t j :: t.eraseIdx j) :=
      List.Perm.swap _ _ _
    have p4 := (cons_eraseIdx_perm hjt).cons a
    exact (p2.trans p3).trans p4
  | a :: t, i + 1, j + 1, hij, hj => by
    have hij' : i < j := by omega
    have hjt : j < t.length := by simpa using hj
    show ((((a :: t).set (i + 1) (getI (a :: t) (j + 1)))).set (j + 1)
      (getI (a :: t) (i + 1))).Perm (a :: t)
    have h0 : getI (a :: t) (j + 1) = getI t j := rfl
    have h1 : getI (a :: t) (i + 1) = getI t i := rfl
    rw [h0, h1]
    show (a :: (t.set i (getI t j)).set j (getI t i)).Perm (a :: t)
    exact (swapAt_perm t i j hij' hjt).cons _

/-! ### The sift-up invariant

`UpProp h index` says the heap shape holds everywhere except possibly on the
edge into `index`, and the grandparent of the children of `index` (its parent)
already bounds those children.  This is the loop invariant of the `heapPush`
sift-up loop. -/

def UpProp (h : List Item) (index : Nat) : Prop :=
  (∀ i j, childEdge i j → j < h.length → j ≠ index →
    (getI h i).score ≤ (getI h j).score) ∧
  (∀ j, childEdge index j → j < h.length → 0 < index →
    (getI h ((index - 1) / 2)).score ≤ (getI h j).score)

theorem upProp_zero_heapProp {h : List Item} (hu : UpProp h 0) : HeapProp h := by
  intro i j hc hj
  refine hu.1 i j hc hj ?_
  have := childEdge_lt hc
  omega

theorem upProp_of_heapProp_append {h : List Item} (hp : HeapProp h) (x : Item) :
    UpProp (h ++ [x]) h.length := by
  constructor
  · intro i j hc hj hne
    have hjlen : j < h.length := by
      simp only [List.length_append, List.length_cons, List.length_nil] at hj
      omega
    have hilen : i < h.length := lt_trans (childEdge_lt hc) hjlen
    have gi : getI (h ++ [x]) i = getI h i := by
      unfold getI
      rw [List.getD_eq_getElem?_getD, List.getElem?_append_left hilen,
        List.getD_eq_getElem?_getD]
    have gj : getI (h ++ [x]) j = getI h j := by
      unfold getI
      rw [List.getD_eq_getElem?_getD, List.getElem?_append_left hjlen,
        List.getD_eq_getElem?_getD]
    rw [gi, gj]
    exact hp i j hc hjlen
  · intro j hc hj _
    have hlt := childEdge_lt hc
    have hjlen : j < h.length + 1 := by simpa using hj
    omega

/-- One sift-up swap step preserves the invariant, moving the hole to the parent. -/
theorem upProp_swap_step {h : List Item} {index : Nat}
    (hu : UpProp h index) (hpos : 0 < index) (hlen : index < h.length)
    (hviol : ¬ (getI h ((index - 1) / 2)).score ≤ (getI h index).score) :
    UpProp (swapAt h ((index - 1) / 2) index) ((index - 1) / 2) := by
  set p := (index - 1) / 2 with hp
  have hpi : p < index := by
    have := childEdge_lt (childEdge_parent hpos)
    omega
  have hplen : p < h.length := lt_trans hpi hlen
  have hscore : (getI h index).score < (getI h p).score := lt_of_not_le hviol
  have gfst : getI (swapAt h p index) p = getI h index :=
    getI_swapAt_fst (by omega) hplen
  have gsnd : getI (swapAt h p index) index = getI h p :=
    getI_swapAt_snd hlen
  have gother : ∀ k, k ≠ p → k ≠ index → getI (swapAt h p index) k = getI h k :=
    fun k h1 h2 => getI_swapAt_other h1 h2
  have hlen2 : (swapAt h p index).length = h.length := length_swapAt h p index
  constructor
  · intro i j hc hj hne
    rw [hlen2] at hj
    by_cases hji : j = index
    · subst hji
      have : i = p := by
        rw [childEdge_parent_eq hc]
      subst this
      rw [gfst, gsnd]
      exact le_of_lt hscore
    · have gj : getI (swapAt h p index) j = getI h j := gother j hne hji
      by_cases hip : i = p
      · subst hip
        rw [gfst, gj]
        have step1 : (getI h p).score ≤ (getI h j).score := hu.1 p j hc hj hji
        exact le_trans (le_of_lt hscore) step1
      · by_cases hii : i = index
        · have hc2 : childEdge index j := by rw [← hii]; exact hc
          rw [hii, gsnd, gj]
          have hres := hu.2 j hc2 hj hpos
          rw [hp]
          exact hres
        · rw [gother i hip hii, gj]
          exact hu.1 i j hc hj hji
  · intro j hc hj hppos
    rw [hlen2] at hj
    set q := (p - 1) / 2 with hq
    have hqp : q < p := by
      have := childEdge_lt (childEdge_parent hppos)
      omega
    have gq : getI (swapAt h p index) q = getI h q :=
      gother q (by omega) (by omega)
    have hjp : j ≠ p := by
      have := childEdge_lt hc
      omega
    have hqp_edge : childEdge q p := by
      rw [hq]
      exact childEdge_parent hppos
    have hqple : (getI h q).score ≤ (getI h p).score :=
      hu.1 q p hqp_edge hplen (by omega)
    by_cases hji : j = index
    · subst hji
      rw [gq, gsnd]
      exact hqple
    · rw [gq, gother j hjp hji]
      have hple : (getI h p).score ≤ (getI h j).score := hu.1 p j hc hj hji
      exact le_trans hqple hple

/-- The sift-up loop, run with enough fuel from a state satisfying its
invariant, restores the full heap property. -/
theorem siftUpF_heapProp : ∀ (fuel : Nat) (h : List Item) (index : Nat),
    index < fuel → index < h.length → UpProp h index → HeapProp (siftUpF fuel h index)
  | 0, _, index, hfuel, _, _ => absurd hfuel (by omega)
  | _ + 1, h, 0, _, _, hu => upProp_zero_heapProp hu
  | fuel + 1, h, j + 1, hfuel, hlen, hu => by
    show HeapProp (if (getI h ((j + 1 - 1) / 2)).score ≤ (getI h (j + 1)).score then h
      else siftUpF fuel (swapAt h ((j + 1 - 1) / 2) (j + 1)) ((j + 1 - 1) / 2))
    by_cases hle : (getI h ((j + 1 - 1) / 2)).score ≤ (getI h (j + 1)).score
    · rw [if_pos hle]
      intro i k hc hk
      by_cases hki : k = j + 1
      · subst hki
        rw [childEdge_parent_eq hc]
        exact hle
      · exact hu.1 i k hc hk hki
    · rw [if_neg hle]
      have hpos : 0 < j + 1 := by omega
      have hpi : (j + 1 - 1) / 2 < j + 1 := by
        have := childEdge_lt (childEdge_parent hpos)
        omega
      exact siftUpF_heapProp fuel (swapAt h ((j + 1 - 1) / 2) (j + 1)) ((j + 1 - 1) / 2)
        (by omega)
        (by rw [length_swapAt]; omega)
        (upProp_swap_step hu hpos hlen hle)

theorem siftUpF_perm : ∀ (fuel : Nat) (h : List Item) (index : Nat),
    index < h.length → (siftUpF fuel h index).Perm h
  | 0, h, _, _ => List.Perm.refl h
  | _ + 1, h, 0, _ => List.Perm.refl h
  | fuel + 1, h, j + 1, hlen => by
    show (if (getI h ((j + 1 - 1) / 2)).score ≤ (getI h (j + 1)).score then h
      else siftUpF fuel (swapAt h ((j + 1 - 1) / 2) (j + 1)) ((j + 1 - 1) / 2)).Perm h
    by_cases hle : (getI h ((j + 1 - 1) / 2)).score ≤ (getI h (j + 1)).score
    · rw [if_pos hle]
    · rw [if_neg hle]
      have hpos : 0 < j + 1 := by omega
      have hpi : (j + 1 - 1) / 2 < j + 1 := by
        have := childEdge_lt (childEdge_parent hpos)
        omega
      have hrec := siftUpF_perm fuel (swapAt h ((j + 1 - 1) / 2) (j + 1)) ((j + 1 - 1) / 2)
        (by rw [length_swapAt]; omega)
      exact hrec.trans (swapAt_perm h ((j + 1 - 1) / 2) (j + 1) hpi hlen)

theorem heapPush_heapProp {h : List Item} (hp : HeapProp h) (x : Item) :
    HeapProp (heapPush h x) := by
  unfold heapPush
  exact siftUpF_heapProp (h.length + 1) (h ++ [x]) h.length (by omega)
    (by simp) (upProp_of_heapProp_append hp x)

theorem heapPush_perm (h : List Item) (x : Item) :
    (heapPush h x).Perm (x :: h) := by
  unfold heapPush
  have p1 := siftUpF_perm (h.length + 1) (h ++ [x]) h.length (by simp)
  have p2 : (h ++ [x]).Perm (x :: h) := by
    have hm := @List.perm_middle _ x h ([] : List Item)
    simp only [List.append_nil] at hm
    exact hm
  exact p1.trans p2

/-! ### The sift-down invariant

`DownProp h index` says the heap shape holds on every edge not leaving
`index`, and the parent of `index` (when it exists) already bounds the
children of `index`.  This is the loop invariant of `heapify`. -/

def DownProp (h : List Item) (index : Nat) : Prop :=
  (∀ i j, childEdge i j → j < h.length → i ≠ index →
    (getI h i).score ≤ (getI h j).score) ∧
  (∀ j, childEdge index j → j < h.length → 0 < index →
    (getI h ((index - 1) / 2)).score ≤ (getI h j).score)

theorem pick1_pos {h : List Item} {index : Nat}
    (c1 : 2*index + 1 < h.length ∧ (getI h (2*index + 1)).score < (getI h index).score) :
    pick1 h index = 2*index + 1 := by
  unfold pick1
  rw [if_pos c1]

theorem pick1_neg {h : List Item} {index : Nat}
    (c1 : ¬ (2*index + 1 < h.length ∧ (getI h (2*index + 1)).score < (getI h index).score)) :
    pick1 h index = index := by
  unfold pick1
  rw [if_neg c1]

theorem smallestIdx_eq_or_child (h : List Item) (index : Nat) :
    smallestIdx h index = index ∨ childEdge index (smallestIdx h index) := by
  unfold smallestIdx
  by_cases c1 : 2*index + 1 < h.length ∧ (getI h (2*index + 1)).score < (getI h index).score
  · rw [pick1_pos c1]
    by_cases c2 : 2*index + 2 < h.length ∧
        (getI h (2*index + 2)).score < (getI h (2*index + 1)).score
    · rw [if_pos c2]
      right; right; rfl
    · rw [if_neg c2]
      right; left; rfl
  · rw [pick1_neg c1]
    by_cases c2 : 2*index + 2 < h.length ∧ (getI h (2*index + 2)).score < (getI h index).score
    · rw [if_pos c2]
      right; right; rfl
    · rw [if_neg c2]
      left; rfl

theorem smallestIdx_self {h : List Item} {index : Nat}
    (hs : smallestIdx h index = index) :
    ∀ j, childEdge index j → j < h.length → (getI h index).score ≤ (getI h j).score := by
  unfold smallestIdx at hs
  by_cases c1 : 2*index + 1 < h.length ∧ (getI h (2*index + 1)).score < (getI h index).score
  · rw [pick1_pos c1] at hs
    by_cases c2 : 2*index + 2 < h.length ∧
        (getI h (2*index + 2)).score < (getI h (2*index + 1)).score
    · rw [if_pos c2] at hs
      omega
    · rw [if_neg c2] at hs
      omega
  · rw [pick1_neg c1] at hs
    by_cases c2 : 2*index + 2 < h.length ∧ (getI h (2*index + 2)).score < (getI h index).score
    · rw [if_pos c2] at hs
      omega
    · intro j hc hj
      rcases hc with hc | hc
      · subst hc
        rcases not_and_or.mp c1 with hbad | hge
        · omega
        · exact le_of_not_lt hge
      · subst hc
        rcases not_and_or.mp c2 with hbad | hge
        · omega
        · exact le_of_not_lt hge

theorem smallestIdx_ne {h : List Item} {index : Nat}
    (hs : smallestIdx h index ≠ index) :
    smallestIdx h index < h.length ∧
    (getI h (smallestIdx h index)).score < (getI h index).score ∧
    (∀ j, childEdge index j → j < h.length →
      (getI h (smallestIdx h index)).score ≤ (getI h j).score) := by
  unfold smallestIdx at hs ⊢
  by_cases c1 : 2*index + 1 < h.length ∧ (getI h (2*index + 1)).score < (getI h index).score
  · rw [pick1_pos c1] at hs ⊢
    by_cases c2 : 2*index + 2 < h.length ∧
        (getI h (2*index + 2)).score < (getI h (2*index + 1)).score
    · rw [if_pos c2] at hs ⊢
      refine ⟨c2.1, lt_trans c2.2 c1.2, ?_⟩
      intro j hc hj
      rcases hc with hc | hc
      · subst hc
        exact le_of_lt c2.2
      · subst hc
        exact le_refl _
    · rw [if_neg c2] at hs ⊢
      refine ⟨c1.1, c1.2, ?_⟩
      intro j hc hj
      rcases hc with hc | hc
      · subst hc
        exact le_refl _
      · subst hc
        rcases not_and_or.mp c2 with hbad | hge
        · omega
        · exact le_of_not_lt hge
  · rw [pick1_neg c1] at hs ⊢
    by_cases c2 : 2*index + 2 < h.length ∧ (getI h (2*index + 2)).score < (getI h index).score
    · rw [if_pos c2] at hs ⊢
      refine ⟨c2.1, c2.2, ?_⟩
      intro j hc hj
      rcases hc with hc | hc
      · subst hc
        rcases not_and_or.mp c1 with hbad | hge
        · omega
        · exact le_trans (le_of_lt c2.2) (le_of_not_lt hge)
      · subst hc
        exact le_refl _
    · rw [if_neg c2] at hs
      omega

/-- One sift-down swap step preserves the invariant, moving the hole to the
smaller child. -/
theorem downProp_swap_step {h : List Item} {index : Nat}
    (hd : DownProp h index) (hs : smallestIdx h index ≠ index) :
    DownProp (swapAt h index (smallestIdx h index)) (smallestIdx h index) := by
  set s := smallestIdx h index with hsdef
  obtain ⟨hslen, hslt, hsle⟩ := smallestIdx_ne hs
  have hedge : childEdge index s := by
    rcases smallestIdx_eq_or_child h index with hcontra | hc
    · exact absurd hcontra hs
    · exact hc
  have his : index < s := childEdge_lt hedge
  have hilen : index < h.length := lt_trans his hslen
  have gidx : getI (swapAt h index s) index = getI h s :=
    getI_swapAt_fst (by omega) hilen
  have gs : getI (swapAt h index s) s = getI h index :=
    getI_swapAt_snd hslen
  have gother : ∀ k, k ≠ index → k ≠ s → getI (swapAt h index s) k = getI h k :=
    fun k h1 h2 => getI_swapAt_other h1 h2
  have hlen2 : (swapAt h index s).length = h.length := length_swapAt h index s
  constructor
  · intro i j hc hj hne
    rw [hlen2] at hj
    by_cases hii : i = index
    · subst hii
      by_cases hjs : j = s
      · subst hjs
        rw [gidx, gs]
        exact le_of_lt hslt
      · rw [gidx, gother j (by
          have := childEdge_lt hc
          omega) hjs]
        exact hsle j hc hj
    · by_cases hji : j = index
      · have hpos : 0 < index := by
          have := childEdge_lt hc
          omega
        have hipar : i = (index - 1) / 2 := by
          rw [childEdge_parent_eq hc, hji]
        rw [gother i hii hne, hji, gidx, hipar]
        exact hd.2 s hedge hslen hpos
      · by_cases hjs : j = s
        · subst hjs
          have hiidx : i = index := by
            rw [childEdge_parent_eq hc, ← childEdge_parent_eq hedge]
          exact absurd hiidx hii
        · rw [gother i hii hne, gother j hji hjs]
          exact hd.1 i j hc hj hii
  · intro j hc hj hspos
    rw [hlen2] at hj
    have hparent : (s - 1) / 2 = index := (childEdge_parent_eq hedge).symm
    rw [hparent]
    have hjgt : s < j := childEdge_lt hc
    rw [gidx, gother j (by omega) (by omega)]
    exact hd.1 s j hc hj (by omega)

theorem heapifyF_heapProp : ∀ (fuel : Nat) (h : List Item) (index : Nat),
    h.length ≤ fuel + index → DownProp h index → HeapProp (heapifyF fuel h index)
  | 0, h, index, hfuel, hd => by
    show HeapProp h
    intro i j hc hj
    have hij := childEdge_lt hc
    exact hd.1 i j hc hj (by omega)
  | fuel + 1, h, index, hfuel, hd => by
    show HeapProp (if smallestIdx h index = index then h
      else heapifyF fuel (swapAt h index (smallestIdx h index)) (smallestIdx h index))
    by_cases hs : smallestIdx h index = index
    · rw [if_pos hs]
      intro i j hc hj
      by_cases hii : i = index
      · subst hii
        exact smallestIdx_self hs j hc hj
      · exact hd.1 i j hc hj hii
    · rw [if_neg hs]
      have hedge : childEdge index (smallestIdx h index) := by
        rcases smallestIdx_eq_or_child h index with hcontra | hc
        · exact absurd hcontra hs
        · exact hc
      have his := childEdge_lt hedge
      refine heapifyF_heapProp fuel (swapAt h index (smallestIdx h index))
        (smallestIdx h index) ?_ (downProp_swap_step hd hs)
      rw [length_swapAt]
      omega

theorem heapifyF_perm : ∀ (fuel : Nat) (h : List Item) (index : Nat),
    (heapifyF fuel h index).Perm h
  | 0, h, _ => List.Perm.refl h
  | fuel + 1, h, index => by
    show (if smallestIdx h index = index then h
      else heapifyF fuel (swapAt h index (smallestIdx h index)) (smallestIdx h index)).Perm h
    by_cases hs : smallestIdx h index = index
    · rw [if_pos hs]
    · rw [if_neg hs]
      obtain ⟨hslen, _, _⟩ := smallestIdx_ne hs
      have hedge : childEdge index (smallestIdx h index) := by
        rcases smallestIdx_eq_or_child h index with hcontra | hc
        · exact absurd hcontra hs
        · exact hc
      have his := childEdge_lt hedge
      exact (heapifyF_perm fuel _ _).trans
        (swapAt_perm h index (smallestIdx h index) his hslen)

/-! ### `heapReplaceRoot` -/

theorem downProp_jsSet0 {hd : Item} {t : List Item}
    (hp : HeapProp (hd :: t)) (x : Item) : DownProp (x :: t) 0 := by
  constructor
  · intro i j hc hj hne
    have hij := childEdge_lt hc
    have hi : 0 < i := by omega
    obtain ⟨i', rfl⟩ : ∃ i', i = i' + 1 := ⟨i - 1, by omega⟩
    obtain ⟨j', rfl⟩ : ∃ j', j = j' + 1 := ⟨j - 1, by omega⟩
    have g1 : getI (x :: t) (i' + 1) = getI (hd :: t) (i' + 1) := rfl
    have g2 : getI (x :: t) (j' + 1) = getI (hd :: t) (j' + 1) := rfl
    rw [g1, g2]
    exact hp _ _ hc (by simpa using hj)
  · intro j _ _ hzero
    omega

theorem heapReplaceRoot_heapProp {h : List Item} (hp : HeapProp h) (x : Item) :
    HeapProp (heapReplaceRoot h x) := by
  cases h with
  | nil =>
    unfold heapReplaceRoot jsSet0
    refine heapifyF_heapProp 1 [x] 0 (by simp) ?_
    constructor
    · intro i j hc hj _
      have := childEdge_lt hc
      simp at hj
      omega
    · intro j _ _ hzero
      omega
  | cons hd t =>
    unfold heapReplaceRoot jsSet0
    refine heapifyF_heapProp (x :: t).length (x :: t) 0 (by simp) ?_
    exact downProp_jsSet0 hp x

theorem heapReplaceRoot_perm (h : List Item) (x : Item) :
    (heapReplaceRoot h x).Perm (jsSet0 h x) := by
  unfold heapReplaceRoot
  exact heapifyF_perm _ _ _

/-! ### The descending stable sort used on results

`heap.sort((a, b) => b.score - a.score)` is a stable sort putting larger
scores first; we model it with insertion sort, which is stable. -/

/-- The result comparison `(a, b) => b.score - a.score <= 0`, i.e. descending score. -/
def scoreGe (a b : Item) : Prop := b.score ≤ a.score

instance : DecidableRel scoreGe := fun a b => inferInstanceAs (Decidable (b.score ≤ a.score))

instance : IsTotal Item scoreGe := ⟨fun a b => le_total b.score a.score⟩

instance : IsTrans Item scoreGe := ⟨fun _ _ _ hab hbc => le_trans hbc hab⟩

/-- The stable descending-score sort applied to result arrays. -/
def sortByScoreDesc (l : List Item) : List Item := List.insertionSort scoreGe l

/-! ### Dot products over the packed embedding buffer -/

/-- `dotProductQueryRow` from semanticSearch.js. -/
def dotProductQueryRow (queryEmbedding : List ℚ) (embeddingsPacked : List ℚ)
    (embeddingSize : Nat) (rowIndex : Nat) : ℚ :=
  (List.range embeddingSize).foldl
    (fun sum i =>
      sum + queryEmbedding.getD i 0 * embeddingsPacked.getD (rowIndex * embeddingSize + i) 0) 0

/-- `dotProductRowRow` from semanticSearch.js. -/
def dotProductRowRow (embeddingsPacked : List ℚ) (embeddingSize : Nat)
    (rowA rowB : Nat) : ℚ :=
  (List.range embeddingSize).foldl
    (fun sum i =>
      sum + embeddingsPacked.getD (rowA * embeddingSize + i) 0 *
        embeddingsPacked.getD (rowB * embeddingSize + i) 0) 0

/-! ### The packed search functions -/

/-- The member state of `SemanticSearchIndex` relevant to the packed search
paths.  The buffers are `Option`s because `_loadWorker` nulls them out after
transferring ownership to the worker. -/
structure SearchState where
  embeddingsPacked : Option (List ℚ)
  verseIndices : Option (List Int)
  embeddingSize : Nat
  verseIndexToRow : Int → Option Nat

/-- `const limit = topK === null || topK <= 0 ? null : topK`. -/
def limitOf (topK : Option Int) : Option Int :=
  match topK with
  | none => none
  | some t => if t ≤ 0 then none else some t

/-- One iteration of the bounded-heap selection loop in `_searchPacked`. -/
def topkStep (limit : Nat) (heap : List Item) (it : Item) : List Item :=
  if heap.length < limit then heapPush heap it
  else if (getI heap 0).score < it.score then heapReplaceRoot heap it
  else heap

/-- The bounded-heap selection loop over the scored rows. -/
def topkFold (limit : Nat) (items : List Item) : List Item :=
  items.foldl (topkStep limit) []

/-- The scored rows visited by the `_searchPacked` loop, in row order. -/
def scoredRows (packed : List ℚ) (vidx : List Int) (size : Nat) (q : List ℚ) : List Item :=
  (List.range vidx.length).map
    (fun row => ⟨vidx.getD row 0, dotProductQueryRow q packed size row⟩)

/-- `_searchPacked` from semanticSearch.js. -/
def searchPacked (st : SearchState) (queryEmbedding : List ℚ) (topK : Option Int) :
    List Item :=
  match st.embeddingsPacked, st.verseIndices with
  | some packed, some vidx =>
    match limitOf topK with
    | none => sortByScoreDesc (scoredRows packed vidx st.embeddingSize queryEmbedding)
    | some limit =>
      sortByScoreDesc
        (topkFold limit.toNat (scoredRows packed vidx st.embeddingSize queryEmbedding))
  | _, _ => []

/-- The scored non-query rows visited by the `_searchByVerseIndexPacked` loop,
with the query verse skipped and the optional `minScore` pre-filter applied. -/
def scoredRowsExcluding (packed : List ℚ) (vidx : List Int) (size : Nat)
    (rowIndex : Nat) (verseIndex : Int) (minScore : Option ℚ) : List Item :=
  match minScore with
  | some ms =>
    (List.range vidx.length).filterMap
      (fun row =>
        if vidx.getD row 0 = verseIndex then none
        else if dotProductRowRow packed size rowIndex row < ms then none
        else some ⟨vidx.getD row 0, dotProductRowRow packed size rowIndex row⟩)
  | none =>
    (List.range vidx.length).filterMap
      (fun row =>
        if vidx.getD row 0 = verseIndex then none
        else some ⟨vidx.getD row 0, dotProductRowRow packed size rowIndex row⟩)

/-- `_searchByVerseIndexPacked` from semanticSearch.js. -/
def searchByVerseIndexPacked (st : SearchState) (verseIndex : Int) (topK : Option Int)
    (minScore : Option ℚ) : List Item :=
  match st.embeddingsPacked, st.verseIndices with
  | some packed, some vidx =>
    match st.verseIndexToRow verseIndex with
    | none => []
    | some rowIndex =>
      match limitOf topK with
      | none =>
        sortByScoreDesc
          (scoredRowsExcluding packed vidx st.embeddingSize rowIndex verseIndex minScore)
      | some limit =>
        sortByScoreDesc
          (topkFold limit.toNat
            (scoredRowsExcluding packed vidx st.embeddingSize rowIndex verseIndex minScore))
  | _, _ => []

/-! ### Heap operation sequences (claim C5) -/

/-- An operation on the bounded heap: the only two mutations the search loops
perform. -/
inductive HeapOp where
  | push (it : Item)
  | replaceRoot (it : Item)

/-- Apply one heap operation. -/
def applyHeapOp (h : List Item) : HeapOp → List Item
  | .push it => heapPush h it
  | .replaceRoot it => heapReplaceRoot h it

/-- Apply a sequence of heap operations starting from the empty heap. -/
def applyHeapOps (ops : List HeapOp) : List Item := ops.foldl applyHeapOp []

theorem applyHeapOp_heapProp {h : List Item} (hp : HeapProp h) (op : HeapOp) :
    HeapProp (applyHeapOp h op) := by
  cases op with
  | push it => exact heapPush_heapProp hp it
  | replaceRoot it => exact heapReplaceRoot_heapProp hp it

theorem heapProp_nil : HeapProp [] := by
  intro i j _ hj
  simp at hj

theorem applyHeapOps_heapProp (ops : List HeapOp) : HeapProp (applyHeapOps ops) := by
  unfold applyHeapOps
  generalize hstart : ([] : List Item) = start
  have hp : HeapProp start := hstart ▸ heapProp_nil
  clear hstart
  induction ops generalizing start with
  | nil => exact hp
  | cons op rest ih => exact ih _ (applyHeapOp_heapProp hp op)

/-! ### The root of a heap is minimal -/

theorem heapProp_root_min {h : List Item} (hp : HeapProp h) :
    ∀ j, j < h.length → (getI h 0).score ≤ (getI h j).score := by
  intro j
  induction j using Nat.strong_induction_on with
  | _ j ih =>
    intro hj
    rcases Nat.eq_zero_or_pos j with rfl | hpos
    · exact le_refl _
    · have hedge := childEdge_parent hpos
      have hplt : (j - 1) / 2 < j := childEdge_lt hedge
      have step := hp _ j hedge hj
      exact le_trans (ih _ hplt (by omega)) step

/-! ### Characterisation of top-k selections

`SelTopK l S k` says `S` is a sub-multiset of `l` of size `min |l| k` whose
members strictly dominate everything left outside.  With pairwise-distinct
scores such a selection is unique, which lets us compare the bounded-heap
loop with the exhaustive sort-then-take computation. -/

def ScoresNodup (l : Multiset Item) : Prop := (l.map Item.score).Nodup

instance (l : Multiset Item) : Decidable (ScoresNodup l) :=
  inferInstanceAs (Decidable (Multiset.Nodup (Multiset.map Item.score l)))

def SelTopK (l S : Multiset Item) (k : Nat) : Prop :=
  S ≤ l ∧ Multiset.card S = min (Multiset.card l) k ∧
  ∀ a ∈ S, ∀ b ∈ l - S, b.score < a.score

theorem scoresNodup_nodup {l : Multiset Item} (hl : ScoresNodup l) : l.Nodup :=
  Multiset.Nodup.of_map Item.score hl

theorem scoresNodup_mono {S l : Multiset Item} (hle : S ≤ l) (hl : ScoresNodup l) :
    ScoresNodup S :=
  Multiset.nodup_of_le (Multiset.map_le_map hle) hl

theorem score_ne_of_ne {l : Multiset Item} (hl : ScoresNodup l) {a b : Item}
    (ha : a ∈ l) (hb : b ∈ l) (hne : a ≠ b) : a.score ≠ b.score := by
  intro heq
  exact hne (Multiset.inj_on_of_nodup_map hl a ha b hb heq)

theorem nodup_le_of_subset {S T : Multiset Item} (hS : S.Nodup)
    (hsub : ∀ a ∈ S, a ∈ T) : S ≤ T := by
  rw [Multiset.le_iff_count]
  intro a
  by_cases hmem : a ∈ S
  · have h1 : Multiset.count a S ≤ 1 := Multiset.nodup_iff_count_le_one.mp hS a
    have h2 : 1 ≤ Multiset.count a T := Multiset.count_pos.mpr (hsub a hmem)
    omega
  · have : Multiset.count a S = 0 := Multiset.count_eq_zero.mpr hmem
    omega

theorem selTopK_unique {l S₁ S₂ : Multiset Item} {k : Nat} (hl : ScoresNodup l)
    (h1 : SelTopK l S₁ k) (h2 : SelTopK l S₂ k) : S₁ = S₂ := by
  have hnd := scoresNodup_nodup hl
  have hS1nd : S₁.Nodup := Multiset.nodup_of_le h1.1 hnd
  have hS2nd : S₂.Nodup := Multiset.nodup_of_le h2.1 hnd
  by_cases hsub : ∀ a ∈ S₁, a ∈ S₂
  · have hle : S₁ ≤ S₂ := nodup_le_of_subset hS1nd hsub
    refine Multiset.eq_of_le_of_card_le hle ?_
    rw [h1.2.1, h2.2.1]
  · push_neg at hsub
    obtain ⟨a, ha1, ha2⟩ := hsub
    have hal : a ∈ l := Multiset.mem_of_le h1.1 ha1
    have hadiff : a ∈ l - S₂ := by
      rw [← Multiset.count_pos, Multiset.count_sub]
      have hc1 : 1 ≤ Multiset.count a l := Multiset.count_pos.mpr hal
      have hc2 : Multiset.count a S₂ = 0 := Multiset.count_eq_zero.mpr ha2
      omega
    by_cases hsub2 : ∀ c ∈ S₂, c ∈ S₁
    · have hle : S₂ ≤ S₁ := nodup_le_of_subset hS2nd hsub2
      have heq : S₂ = S₁ := by
        refine Multiset.eq_of_le_of_card_le hle ?_
        rw [h1.2.1, h2.2.1]
      rw [heq] at ha2
      exact absurd ha1 ha2
    · push_neg at hsub2
      obtain ⟨c, hc2, hc1⟩ := hsub2
      have hcdiff : c ∈ l - S₁ := by
        rw [← Multiset.count_pos, Multiset.count_sub]
        have hcl : c ∈ l := Multiset.mem_of_le h2.1 hc2
        have hd1 : 1 ≤ Multiset.count c l := Multiset.count_pos.mpr hcl
        have hd2 : Multiset.count c S₁ = 0 := Multiset.count_eq_zero.mpr hc1
        omega
      have hlt1 : c.score < a.score := h1.2.2 a ha1 c hcdiff
      have hlt2 : a.score < c.score := h2.2.2 c hc2 a hadiff
      exact absurd (lt_trans hlt1 hlt2) (lt_irrefl _)

theorem root_min_members {h : List Item} (hp : HeapProp h) :
    ∀ a ∈ h, (getI h 0).score ≤ a.score := by
  intro a ha
  obtain ⟨idx, hidx, rfl⟩ := List.getElem_of_mem ha
  rw [← getI_eq_getElem hidx]
  exact heapProp_root_min hp idx hidx

/-! ### The bounded-heap loop computes a top-k selection -/

theorem topkStep_inv {k : Nat} (hk : 1 ≤ k) {heap processed : List Item} {x : Item}
    (hp : HeapProp heap) (hsel : SelTopK (↑processed) (↑heap) k)
    (hnd : ScoresNodup (↑(processed ++ [x]))) :
    HeapProp (topkStep k heap x) ∧
    SelTopK (↑(processed ++ [x])) (↑(topkStep k heap x)) k := by
  have hl' : (↑(processed ++ [x]) : Multiset Item) = x ::ₘ (↑processed : Multiset Item) := by
    rw [Multiset.cons_coe, Multiset.coe_eq_coe]
    have hm := @List.perm_middle _ x processed ([] : List Item)
    simp only [List.append_nil] at hm
    exact hm
  have hndl : (Multiset.Nodup (↑(processed ++ [x]) : Multiset Item)) :=
    scoresNodup_nodup hnd
  unfold topkStep
  by_cases hlt : heap.length < k
  · rw [if_pos hlt]
    -- heap holds every processed item so far
    have hcard : Multiset.card (↑heap : Multiset Item) =
        min (Multiset.card (↑processed : Multiset Item)) k := hsel.2.1
    rw [Multiset.coe_card] at hcard
    have hminlt : min (Multiset.card (↑processed : Multiset Item)) k < k := by omega
    have hple : Multiset.card (↑processed : Multiset Item) < k := by
      rcases le_or_lt k (Multiset.card (↑processed : Multiset Item)) with hx | hx
      · rw [min_eq_right hx] at hminlt
        omega
      · exact hx
    have hcard2 : Multiset.card (↑heap : Multiset Item) =
        Multiset.card (↑processed : Multiset Item) := by
      rw [Multiset.coe_card, hcard, min_eq_left (by omega)]
    have hPH : (↑heap : Multiset Item) = ↑processed :=
      Multiset.eq_of_le_of_card_le hsel.1 (by omega)
    have hpush : (↑(heapPush heap x) : Multiset Item) = x ::ₘ (↑heap : Multiset Item) := by
      rw [Multiset.cons_coe, Multiset.coe_eq_coe]
      exact heapPush_perm heap x
    refine ⟨heapPush_heapProp hp x, ?_, ?_, ?_⟩
    · rw [hpush, hPH, hl']
    · rw [hpush, hPH, hl', Multiset.card_cons]
      have hlek : Multiset.card (↑processed : Multiset Item) + 1 ≤ k := by omega
      rw [min_eq_left hlek]
    · intro a _ b hb
      rw [hpush, hPH, hl', tsub_self] at hb
      exact absurd hb (Multiset.not_mem_zero b)
  · rw [if_neg hlt]
    -- the heap is full: length = k and at least k items processed
    have hcard : Multiset.card (↑heap : Multiset Item) =
        min (Multiset.card (↑processed : Multiset Item)) k := hsel.2.1
    rw [Multiset.coe_card] at hcard
    have hlen : heap.length = k := by
      rcases le_or_lt k (Multiset.card (↑processed : Multiset Item)) with hx | hx
      · rw [min_eq_right hx] at hcard
        omega
      · rw [min_eq_left (by omega)] at hcard
        omega
    have hPk : k ≤ Multiset.card (↑processed : Multiset Item) := by
      rcases le_or_lt k (Multiset.card (↑processed : Multiset Item)) with hx | hx
      · exact hx
      · rw [min_eq_left (by omega)] at hcard
        omega
    obtain ⟨hd, t, heap_eq⟩ : ∃ hd t, heap = hd :: t := by
      cases heap with
      | nil => simp at hlen; omega
      | cons hd t => exact ⟨hd, t, rfl⟩
    subst heap_eq
    have hroot : getI (hd :: t) 0 = hd := rfl
    have hHcons : (↑(hd :: t) : Multiset Item) = hd ::ₘ (↑t : Multiset Item) := by
      rw [Multiset.cons_coe]
    have hxnotp : x ∉ (↑processed : Multiset Item) := by
      intro hmem
      have hc : 2 ≤ Multiset.count x (↑(processed ++ [x]) : Multiset Item) := by
        rw [hl', Multiset.count_cons_self]
        have := Multiset.count_pos.mpr hmem
        omega
      have hle1 := Multiset.nodup_iff_count_le_one.mp hndl x
      omega
    have hhd_mem_p : hd ∈ (↑processed : Multiset Item) :=
      Multiset.mem_of_le hsel.1 (by rw [hHcons]; exact Multiset.mem_cons_self _ _)
    have hhd_mem_l : hd ∈ (↑(processed ++ [x]) : Multiset Item) := by
      rw [hl']
      exact Multiset.mem_cons_of_mem hhd_mem_p
    have hx_mem_l : x ∈ (↑(processed ++ [x]) : Multiset Item) := by
      rw [hl']
      exact Multiset.mem_cons_self _ _
    have hxhd : x ≠ hd := by
      intro heq
      rw [heq] at hxnotp
      exact hxnotp hhd_mem_p
    have hxhd_score : x.score ≠ hd.score := score_ne_of_ne hnd hx_mem_l hhd_mem_l hxhd
    have hHle_l : (↑(hd :: t) : Multiset Item) ≤ ↑(processed ++ [x]) := by
      refine le_trans hsel.1 ?_
      rw [hl']
      exact Multiset.le_cons_self _ _
    have hHnodup : Multiset.Nodup (↑(hd :: t) : Multiset Item) :=
      Multiset.nodup_of_le hHle_l hndl
    have hHscores : ScoresNodup (↑(hd :: t) : Multiset Item) :=
      scoresNodup_mono hHle_l hnd
    have hcardt : Multiset.card (↑t : Multiset Item) + 1 = k := by
      have hck : Multiset.card (↑(hd :: t) : Multiset Item) = k := by
        rw [Multiset.coe_card]
        exact hlen
      rw [hHcons, Multiset.card_cons] at hck
      omega
    by_cases hgt : (getI (hd :: t) 0).score < x.score
    · rw [if_pos hgt]
      rw [hroot] at hgt
      have hrepl : (↑(heapReplaceRoot (hd :: t) x) : Multiset Item) =
          x ::ₘ (↑t : Multiset Item) := by
        rw [Multiset.cons_coe, Multiset.coe_eq_coe]
        exact heapReplaceRoot_perm (hd :: t) x
      have htle : (↑t : Multiset Item) ≤ ↑processed := by
        refine le_trans ?_ hsel.1
        rw [hHcons]
        exact Multiset.le_cons_self _ _
      refine ⟨heapReplaceRoot_heapProp hp x, ?_, ?_, ?_⟩
      · rw [hrepl, hl']
        exact Multiset.cons_le_cons x htle
      · rw [hrepl, hl', Multiset.card_cons, Multiset.card_cons, hcardt,
          min_eq_right (by omega)]
      · intro a ha b hb
        rw [hrepl] at ha
        rw [hrepl, hl'] at hb
        have hdiff : (x ::ₘ (↑processed : Multiset Item)) - (x ::ₘ (↑t : Multiset Item)) =
            (↑processed : Multiset Item) - (↑t : Multiset Item) := by
          rw [← Multiset.singleton_add, ← Multiset.singleton_add x (↑t : Multiset Item)]
          exact add_tsub_add_eq_tsub_left _ _ _
        rw [hdiff] at hb
        have hcount : Multiset.count b (↑t : Multiset Item) <
            Multiset.count b (↑processed : Multiset Item) := by
          have := Multiset.count_pos.mpr hb
          rw [Multiset.count_sub] at this
          omega
        by_cases hbhd : b = hd
        · -- b is the evicted root
          rw [hbhd]
          rcases Multiset.mem_cons.mp ha with rfl | hat
          · exact hgt
          · have hamem : a ∈ (↑(hd :: t) : Multiset Item) := by
              rw [hHcons]
              exact Multiset.mem_cons_of_mem hat
            have hble : hd.score ≤ a.score := by
              have hr := root_min_members hp a hamem
              rw [hroot] at hr
              exact hr
            have hanehd : a ≠ hd := by
              intro heq
              rw [heq] at hat
              have hnotmem : hd ∉ (↑t : Multiset Item) := by
                rw [hHcons] at hHnodup
                exact (Multiset.nodup_cons.mp hHnodup).1
              exact hnotmem hat
            have hhdmem : hd ∈ (↑(hd :: t) : Multiset Item) := by
              rw [hHcons]
              exact Multiset.mem_cons_self _ _
            have hne2 : hd.score ≠ a.score :=
              score_ne_of_ne hHscores hhdmem hamem (Ne.symm hanehd)
            exact lt_of_le_of_ne hble hne2
        · -- b was outside the heap already
          have hbH : b ∈ (↑processed : Multiset Item) - (↑(hd :: t) : Multiset Item) := by
            rw [← Multiset.count_pos, Multiset.count_sub, hHcons,
              Multiset.count_cons_of_ne hbhd]
            omega
          have hbold : ∀ c ∈ (↑(hd :: t) : Multiset Item), b.score < c.score :=
            fun c hc => hsel.2.2 c hc b hbH
          rcases Multiset.mem_cons.mp ha with rfl | hat
          · have hbhd_lt : b.score < hd.score := by
              refine hbold hd ?_
              rw [hHcons]
              exact Multiset.mem_cons_self _ _
            exact lt_trans hbhd_lt hgt
          · refine hbold a ?_
            rw [hHcons]
            exact Multiset.mem_cons_of_mem hat
    · rw [if_neg hgt]
      rw [hroot] at hgt
      have hxle : x.score < hd.score := lt_of_le_of_ne (le_of_not_lt hgt) hxhd_score
      refine ⟨hp, ?_, ?_, ?_⟩
      · rw [hl']
        exact le_trans hsel.1 (Multiset.le_cons_self _ _)
      · rw [hl', Multiset.card_cons, Multiset.coe_card, hlen,
          min_eq_right (by omega)]
      · intro a ha b hb
        rw [hl'] at hb
        by_cases hbx : b = x
        · rw [hbx]
          have hroot_le := root_min_members hp a ha
          rw [hroot] at hroot_le
          exact lt_of_lt_of_le hxle hroot_le
        · have hbp : b ∈ (↑processed : Multiset Item) - (↑(hd :: t) : Multiset Item) := by
            have hcpos := Multiset.count_pos.mpr hb
            rw [Multiset.count_sub, Multiset.count_cons_of_ne hbx] at hcpos
            rw [← Multiset.count_pos, Multiset.count_sub]
            omega
          exact hsel.2.2 a ha b hbp

theorem selTopK_nil {k : Nat} : SelTopK (↑([] : List Item)) (↑([] : List Item)) k := by
  refine ⟨le_refl _, ?_, ?_⟩
  · simp
  · intro a ha
    simp at ha

theorem topkFold_go {k : Nat} (hk : 1 ≤ k) :
    ∀ (items processed heap : List Item),
    HeapProp heap → SelTopK (↑processed) (↑heap) k →
    ScoresNodup (↑(processed ++ items)) →
    HeapProp (items.foldl (topkStep k) heap) ∧
    SelTopK (↑(processed ++ items)) (↑(items.foldl (topkStep k) heap)) k
  | [], processed, heap, hp, hsel, hnd => by
    simpa using ⟨hp, hsel⟩
  | x :: rest, processed, heap, hp, hsel, hnd => by
    have hnd1 : ScoresNodup (↑(processed ++ [x])) := by
      unfold ScoresNodup at hnd ⊢
      have hsub : ((processed ++ [x]).map Item.score).Sublist
          ((processed ++ x :: rest).map Item.score) := by
        refine List.Sublist.map Item.score ?_
        refine List.Sublist.append (List.Sublist.refl processed) ?_
        exact List.cons_sublist_cons.mpr (List.nil_sublist rest)
      exact List.Nodup.sublist hsub hnd
    have hstep := topkStep_inv hk hp hsel hnd1
    have hassoc : processed ++ x :: rest = (processed ++ [x]) ++ rest := by simp
    rw [hassoc] at hnd ⊢
    have := topkFold_go hk rest (processed ++ [x]) (topkStep k heap x) hstep.1 hstep.2 hnd
    simpa using this

theorem topkFold_spec {k : Nat} (hk : 1 ≤ k) (items : List Item)
    (hnd : ScoresNodup (↑items)) :
    HeapProp (topkFold k items) ∧ SelTopK (↑items) (↑(topkFold k items)) k := by
  have := topkFold_go hk items [] [] heapProp_nil selTopK_nil (by simpa using hnd)
  simpa using this

/-! ### The sorted-and-truncated exhaustive computation is also a top-k selection -/

theorem sortByScoreDesc_perm (l : List Item) : (sortByScoreDesc l).Perm l :=
  List.perm_insertionSort scoreGe l

theorem sortByScoreDesc_sorted (l : List Item) :
    List.Sorted scoreGe (sortByScoreDesc l) :=
  List.sorted_insertionSort scoreGe l

theorem take_sorted_selTopK {l : List Item} (k : Nat) (hnd : ScoresNodup (↑l)) :
    SelTopK (↑l) (↑((sortByScoreDesc l).take k)) k := by
  set s := sortByScoreDesc l with hs
  have hperm : (↑s : Multiset Item) = ↑l := Multiset.coe_eq_coe.mpr (sortByScoreDesc_perm l)
  have hsplit : s.take k ++ s.drop k = s := List.take_append_drop k s
  refine ⟨?_, ?_, ?_⟩
  · rw [← hperm]
    exact Multiset.coe_le.mpr (List.Sublist.subperm (List.take_sublist k s))
  · rw [Multiset.coe_card, Multiset.coe_card, List.length_take, Nat.min_comm,
      (sortByScoreDesc_perm l).length_eq]
  · intro a ha b hb
    have hdiff : (↑l : Multiset Item) - ↑(s.take k) = ↑(s.drop k) := by
      rw [← hperm, ← hsplit, ← Multiset.coe_add]
      rw [hsplit]
      exact add_tsub_cancel_left _ _
    rw [hdiff] at hb
    rw [Multiset.mem_coe] at ha hb
    have hpair : List.Pairwise scoreGe (s.take k ++ s.drop k) := by
      rw [hsplit]
      exact sortByScoreDesc_sorted l
    have hge : scoreGe a b := (List.pairwise_append.mp hpair).2.2 a ha b hb
    have hndm : ((s.take k ++ s.drop k).map Item.score).Nodup := by
      rw [hsplit]
      have : ScoresNodup (↑s : Multiset Item) := by
        unfold ScoresNodup
        rw [hperm]
        exact hnd
      exact this
    rw [List.map_append] at hndm
    have hdisj := List.disjoint_of_nodup_append hndm
    have hne : a.score ≠ b.score := by
      intro heq
      refine hdisj (List.mem_map_of_mem Item.score ha) ?_
      rw [heq]
      exact List.mem_map_of_mem Item.score hb
    exact lt_of_le_of_ne hge (Ne.symm hne)

/-- The bounded heap selection agrees (as a multiset) with sorting everything
and keeping the first `k`, whenever all scores are pairwise distinct. -/
theorem topkFold_perm_take {k : Nat} (hk : 1 ≤ k) (items : List Item)
    (hnd : ScoresNodup (↑items)) :
    (topkFold k items).Perm ((sortByScoreDesc items).take k) := by
  have h1 := (topkFold_spec hk items hnd).2
  have h2 := take_sorted_selTopK (l := items) k hnd
  have := selTopK_unique hnd h1 h2
  exact Multiset.coe_eq_coe.mp this

/-- C1 (amended with pairwise-distinct scores): for a packed embedding set of
`N` rows, a query vector, and `1 ≤ k ≤ N`, the bounded min-heap search returns
the same results, as unordered collections, as exhaustively scoring every row,
sorting by descending score and taking the first `k`. -/
theorem C1_searchPacked_eq_exhaustive (packed : List ℚ) (vidx : List Int)
    (size : Nat) (m : Int → Option Nat) (q : List ℚ) (k : Int)
    (hk1 : 1 ≤ k) (_hkN : k.toNat ≤ vidx.length)
    (hnd : ScoresNodup (↑(scoredRows packed vidx size q))) :
    (searchPacked ⟨some packed, some vidx, size, m⟩ q (some k)).Perm
      ((sortByScoreDesc (scoredRows packed vidx size q)).take k.toNat) := by
  have hlim : limitOf (some k) = some k := by
    show (if k ≤ 0 then none else some k) = some k
    rw [if_neg (by omega)]
  show (match limitOf (some k) with
    | none => sortByScoreDesc (scoredRows packed vidx size q)
    | some limit => sortByScoreDesc (topkFold limit.toNat (scoredRows packed vidx size q))
    ).Perm ((sortByScoreDesc (scoredRows packed vidx size q)).take k.toNat)
  rw [hlim]
  have hk' : 1 ≤ k.toNat := by omega
  have hfold := topkFold_perm_take hk' (scoredRows packed vidx size q) hnd
  exact (sortByScoreDesc_perm _).trans hfold

unseal Rat.add Rat.mul in
/-- C1 witness: a concrete run with distinct scores where the theorem applies. -/
theorem C1_witness :
    (1 ≤ (2 : Int) ∧ (2 : Int).toNat ≤ ([10, 11, 12] : List Int).length ∧
      ScoresNodup (↑(scoredRows [1, 3, 2] [10, 11, 12] 1 [1]))) ∧
    (searchPacked ⟨some [1, 3, 2], some [10, 11, 12], 1, fun _ => none⟩ [1] (some 2)).Perm
      ((sortByScoreDesc (scoredRows [1, 3, 2] [10, 11, 12] 1 [1])).take (2 : Int).toNat) :=
  ⟨⟨by decide, by decide, by decide⟩,
    C1_searchPacked_eq_exhaustive [1, 3, 2] [10, 11, 12] 1 (fun _ => none) [1] 2
      (by decide) (by decide) (by decide)⟩

unseal Rat.add Rat.mul in
/-- C1 counterexample: with tied scores the bounded-heap result and the
exhaustive sort-then-take result differ as unordered collections, refuting the
claim as stated (without the distinct-scores hypothesis). -/
theorem C1_counterexample :
    ¬ (searchPacked ⟨some [1, 1, 2], some [10, 11, 12], 1, fun _ => none⟩ [1] (some 2)).Perm
      ((sortByScoreDesc (scoredRows [1, 1, 2] [10, 11, 12] 1 [1])).take 2) := by
  intro hperm
  have hmem : (⟨11, 1⟩ : Item) ∈
      (searchPacked ⟨some [1, 1, 2], some [10, 11, 12], 1, fun _ => none⟩ [1] (some 2)) := by
    decide
  have hmem2 := hperm.mem_iff.mp hmem
  revert hmem2
  decide

/-- C5: after any sequence of heapPush / heapReplaceRoot operations applied to
an initially empty heap, the element at index 0 (the root) has a score less
than or equal to the score of every other element currently in the heap. -/
theorem C5_heap_root_min (ops : List HeapOp) (j : Nat)
    (hj : j < (applyHeapOps ops).length) :
    (getI (applyHeapOps ops) 0).score ≤ (getI (applyHeapOps ops) j).score :=
  heapProp_root_min (applyHeapOps_heapProp ops) j hj

unseal Rat.add Rat.mul in
/-- C5 witness: a concrete operation sequence. -/
theorem C5_witness :
    1 < (applyHeapOps [HeapOp.push ⟨1, 5⟩, HeapOp.push ⟨2, 3⟩,
        HeapOp.replaceRoot ⟨3, 4⟩]).length ∧
    (getI (applyHeapOps [HeapOp.push ⟨1, 5⟩, HeapOp.push ⟨2, 3⟩,
        HeapOp.replaceRoot ⟨3, 4⟩]) 0).score ≤
      (getI (applyHeapOps [HeapOp.push ⟨1, 5⟩, HeapOp.push ⟨2, 3⟩,
        HeapOp.replaceRoot ⟨3, 4⟩]) 1).score :=
  ⟨by decide,
    C5_heap_root_min [HeapOp.push ⟨1, 5⟩, HeapOp.push ⟨2, 3⟩,
      HeapOp.replaceRoot ⟨3, 4⟩] 1 (by decide)⟩

/-- C10: whenever the packed buffers are absent the in-process fallbacks
return the empty list rather than throwing, and `_searchByVerseIndexPacked`
returns the empty list for any verse index not present in the index. -/
theorem C10_absent_buffers (st : SearchState) (q : List ℚ) (vi : Int)
    (topK : Option Int) (ms : Option ℚ) :
    (st.embeddingsPacked = none ∨ st.verseIndices = none →
      searchPacked st q topK = [] ∧ searchByVerseIndexPacked st vi topK ms = []) ∧
    (st.verseIndexToRow vi = none → searchByVerseIndexPacked st vi topK ms = []) := by
  obtain ⟨packedOpt, vidxOpt, size, rowMap⟩ := st
  constructor
  · intro habs
    cases packedOpt with
    | none => exact ⟨rfl, rfl⟩
    | some packed =>
      cases vidxOpt with
      | none => exact ⟨rfl, rfl⟩
      | some vidx =>
        simp only [] at habs
        rcases habs with habs | habs <;> exact absurd habs (by simp)
  · intro hnone
    cases packedOpt with
    | none => rfl
    | some packed =>
      cases vidxOpt with
      | none => rfl
      | some vidx =>
        show (match rowMap vi with
          | none => []
          | some rowIndex =>
            match limitOf topK with
            | none => sortByScoreDesc (scoredRowsExcluding packed vidx size rowIndex vi ms)
            | some limit =>
              sortByScoreDesc
                (topkFold limit.toNat
                  (scoredRowsExcluding packed vidx size rowIndex vi ms))) = []
        simp only [SearchState.verseIndexToRow] at hnone
        rw [hnone]

/-- C10 witness: a concrete state with transferred (nulled) buffers and a
missing verse index. -/
theorem C10_witness :
    ((none : Option (List ℚ)) = none ∨ (none : Option (List Int)) = none) ∧
    searchPacked ⟨none, none, 1, fun _ => none⟩ [1] (some 2) = [] ∧
    searchByVerseIndexPacked ⟨none, none, 1, fun _ => none⟩ 7 (some 2) none = [] :=
  ⟨Or.inl rfl,
    (C10_absent_buffers ⟨none, none, 1, fun _ => none⟩ [1] 7 (some 2) none).1 (Or.inl rfl)⟩

/-! ### Supporting lemmas for claim C4 -/

theorem sorted_nodup_eq : ∀ (l₁ l₂ : List Item), List.Sorted scoreGe l₁ →
    List.Sorted scoreGe l₂ → ScoresNodup (↑l₁) →
    (↑l₁ : Multiset Item) = ↑l₂ → l₁ = l₂
  | [], l₂, _, _, _, hm => by
    have := (Multiset.coe_eq_coe.mp hm).symm
    exact (List.Perm.eq_nil this).symm
  | a :: t₁, [], _, _, _, hm => by
    have := Multiset.coe_eq_coe.mp hm
    exact absurd (List.Perm.eq_nil this) (by simp)
  | a :: t₁, b :: t₂, hs₁, hs₂, hnd, hm => by
    have hperm : (a :: t₁).Perm (b :: t₂) := Multiset.coe_eq_coe.mp hm
    have hab : a = b := by
      by_contra hne
      have hat₂ : a ∈ t₂ := by
        have : a ∈ b :: t₂ := hperm.mem_iff.mp (List.mem_cons_self a t₁)
        rcases List.mem_cons.mp this with h | h
        · exact absurd h hne
        · exact h
      have hbt₁ : b ∈ t₁ := by
        have : b ∈ a :: t₁ := hperm.mem_iff.mpr (List.mem_cons_self b t₂)
        rcases List.mem_cons.mp this with h | h
        · exact absurd h.symm hne
        · exact h
      have h1 : a.score ≤ b.score := (List.sorted_cons.mp hs₂).1 a hat₂
      have h2 : b.score ≤ a.score := (List.sorted_cons.mp hs₁).1 b hbt₁
      have heq : a.score = b.score := le_antisymm h1 h2
      have hmem_a : a ∈ (↑(a :: t₁) : Multiset Item) := by
        rw [Multiset.mem_coe]
        exact List.mem_cons_self a t₁
      have hmem_b : b ∈ (↑(a :: t₁) : Multiset Item) := by
        rw [Multiset.mem_coe]
        exact List.mem_cons_of_mem a hbt₁
      exact score_ne_of_ne hnd hmem_a hmem_b hne heq
    subst hab
    have hperm' : t₁.Perm t₂ := hperm.cons_inv
    have ht₁s : List.Sorted scoreGe t₁ := (List.sorted_cons.mp hs₁).2
    have ht₂s : List.Sorted scoreGe t₂ := (List.sorted_cons.mp hs₂).2
    have hndt : ScoresNodup (↑t₁) := by
      refine scoresNodup_mono ?_ hnd
      rw [← Multiset.cons_coe]
      exact Multiset.le_cons_self _ _
    have := sorted_nodup_eq t₁ t₂ ht₁s ht₂s hndt (Multiset.coe_eq_coe.mpr hperm')
    rw [this]

/-- Members of the bounded-heap fold all come from the input items. -/
theorem topkFold_subset {k : Nat} :
    ∀ (items heap : List Item) (x : Item), x ∈ items.foldl (topkStep k) heap →
      x ∈ heap ∨ x ∈ items
  | [], heap, x, hx => Or.inl hx
  | y :: rest, heap, x, hx => by
    rcases topkFold_subset rest (topkStep k heap y) x hx with hmem | hmem
    · unfold topkStep at hmem
      by_cases h1 : heap.length < k
      · rw [if_pos h1] at hmem
        have := (heapPush_perm heap y).mem_iff.mp hmem
        rcases List.mem_cons.mp this with h | h
        · right
          rw [h]
          exact List.mem_cons_self y rest
        · exact Or.inl h
      · rw [if_neg h1] at hmem
        by_cases h2 : (getI heap 0).score < y.score
        · rw [if_pos h2] at hmem
          have hmem2 := (heapReplaceRoot_perm heap y).mem_iff.mp hmem
          cases heap with
          | nil =>
            right
            rcases List.mem_cons.mp hmem2 with h | h
            · rw [h]
              exact List.mem_cons_self y rest
            · simp at h
          | cons hd t =>
            rcases List.mem_cons.mp hmem2 with h | h
            · right
              rw [h]
              exact List.mem_cons_self y rest
            · exact Or.inl (List.mem_cons_of_mem hd h)
        · rw [if_neg h2] at hmem
          exact Or.inl hmem
    · right
      exact List.mem_cons_of_mem y hmem

/-- The minScore branch of the loop is a filter of the unfiltered scan. -/
theorem scoredRowsExcluding_filter (packed : List ℚ) (vidx : List Int) (size : Nat)
    (rowIndex : Nat) (verseIndex : Int) (ms : ℚ) :
    scoredRowsExcluding packed vidx size rowIndex verseIndex (some ms) =
      (scoredRowsExcluding packed vidx size rowIndex verseIndex none).filter
        (fun it => ms ≤ it.score) := by
  simp only [scoredRowsExcluding]
  generalize List.range vidx.length = rows
  induction rows with
  | nil => rfl
  | cons row rest ih =>
    rw [List.filterMap_cons, List.filterMap_cons]
    by_cases hvi : vidx.getD row 0 = verseIndex
    · rw [if_pos hvi, if_pos hvi, ih]
    · rw [if_neg hvi, if_neg hvi]
      by_cases hms : dotProductRowRow packed size rowIndex row < ms
      · rw [if_pos hms, List.filter_cons]
        have hple : ¬ ms ≤ (⟨vidx.getD row 0, dotProductRowRow packed size rowIndex row⟩ :
            Item).score := not_le.mpr hms
        simp only [hple, decide_False, Bool.false_eq_true, if_false]
        exact ih
      · rw [if_neg hms, List.filter_cons]
        have hple : ms ≤ (⟨vidx.getD row 0, dotProductRowRow packed size rowIndex row⟩ :
            Item).score := not_lt.mp hms
        simp only [hple, decide_True, if_true]
        rw [ih]

/-- Filtering by an upward-closed predicate commutes with taking a top-k
selection. -/
theorem selTopK_filter {l S : Multiset Item} {k : Nat} (p : Item → Prop)
    [DecidablePred p] (hup : ∀ a b : Item, b.score ≤ a.score → p b → p a)
    (hnd : ScoresNodup l) (hsel : SelTopK l S k) :
    SelTopK (Multiset.filter p l) (Multiset.filter p S) k := by
  have hndl := scoresNodup_nodup hnd
  have hndS : S.Nodup := Multiset.nodup_of_le hsel.1 hndl
  have hscore : ∀ a ∈ Multiset.filter p S, ∀ b ∈ Multiset.filter p l - Multiset.filter p S,
      b.score < a.score := by
    intro a ha b hb
    have haS : a ∈ S := Multiset.mem_of_mem_filter ha
    have hbls : b ∈ l - S := by
      have hcpos := Multiset.count_pos.mpr hb
      rw [Multiset.count_sub, Multiset.count_filter, Multiset.count_filter] at hcpos
      rw [← Multiset.count_pos, Multiset.count_sub]
      by_cases hpb : p b
      · simp only [if_pos hpb] at hcpos
        omega
      · simp only [if_neg hpb] at hcpos
        omega
    exact hsel.2.2 a haS b hbls
  refine ⟨Multiset.filter_le_filter _ hsel.1, ?_, hscore⟩
  rcases le_or_lt (Multiset.card l) k with hcase | hcase
  · -- everything selected
    have hSl : S = l := by
      refine Multiset.eq_of_le_of_card_le hsel.1 ?_
      rw [hsel.2.1, min_eq_left hcase]
    rw [hSl]
    have hfl : Multiset.card (Multiset.filter p l) ≤ k :=
      le_trans (Multiset.card_le_card (Multiset.filter_le _ _)) hcase
    rw [min_eq_left hfl]
  · have hcardS : Multiset.card S = k := by
      rw [hsel.2.1, min_eq_right (by omega)]
    by_cases hall : ∀ a ∈ S, p a
    · have hfS : Multiset.filter p S = S := Multiset.filter_eq_self.mpr hall
      rw [hfS, hcardS]
      have hSle : S ≤ Multiset.filter p l := Multiset.le_filter.mpr ⟨hsel.1, hall⟩
      have hcle := Multiset.card_le_card hSle
      rw [min_eq_right (by omega)]
    · push_neg at hall
      obtain ⟨a, haS, hpa⟩ := hall
      have hfeq : Multiset.filter p S = Multiset.filter p l := by
        ext x
        rw [Multiset.count_filter, Multiset.count_filter]
        by_cases hpx : p x
        · simp only [if_pos hpx]
          have hcount_le : Multiset.count x S ≤ Multiset.count x l :=
            Multiset.le_iff_count.mp hsel.1 x
          rcases Nat.eq_zero_or_pos (Multiset.count x l) with hz | hpos
          · omega
          · have hxl : x ∈ l := Multiset.count_pos.mp hpos
            have hxS : x ∈ S := by
              by_contra hxS
              have hxdiff : x ∈ l - S := by
                rw [← Multiset.count_pos, Multiset.count_sub]
                have hcz : Multiset.count x S = 0 := Multiset.count_eq_zero.mpr hxS
                omega
              have hlt : x.score < a.score := hsel.2.2 a haS x hxdiff
              exact hpa (hup a x (le_of_lt hlt) hpx)
            have h1 : Multiset.count x S ≤ 1 := Multiset.nodup_iff_count_le_one.mp hndS x
            have h2 : Multiset.count x l ≤ 1 := Multiset.nodup_iff_count_le_one.mp hndl x
            have h3 : 1 ≤ Multiset.count x S := Multiset.count_pos.mpr hxS
            omega
        · simp only [if_neg hpx]
      rw [hfeq]
      have hle2 : Multiset.card (Multiset.filter p l) ≤ k := by
        rw [← hfeq, ← hcardS]
        exact Multiset.card_le_card (Multiset.filter_le _ _)
      rw [min_eq_left hle2]

/-- The stored embedding of a packed row: `size` consecutive entries starting
at `row * size`. -/
def rowEmbedding (packed : List ℚ) (size : Nat) (row : Nat) : List ℚ :=
  (packed.drop (row * size)).take size

/-- The row-to-row dot product is the query-to-row dot product taken at the
stored row embedding, whenever the row lies inside the packed buffer. -/
theorem dotRowRow_eq_query (packed : List ℚ) (size : Nat) (rA rB : Nat)
    (hbound : (rA + 1) * size ≤ packed.length) :
    dotProductRowRow packed size rA rB =
      dotProductQueryRow (rowEmbedding packed size rA) packed size rB := by
  unfold dotProductRowRow dotProductQueryRow rowEmbedding
  refine List.foldl_ext _ _ 0 ?_
  intro acc i hi
  have hi' : i < size := List.mem_range.mp hi
  have hidx : rA * size + i < packed.length := by
    rw [add_mul, one_mul] at hbound
    omega
  have hget : ((packed.drop (rA * size)).take size).getD i 0 =
      packed.getD (rA * size + i) 0 := by
    rw [List.getD_eq_getElem?_getD, List.getElem?_take_of_lt hi', List.getElem?_drop,
      List.getD_eq_getElem?_getD]
  rw [hget]

/-- The non-query scored rows expressed through a generic query embedding;
instantiated with the stored row embedding this coincides with the row-to-row
scan of the source. -/
def scoredRowsExcludingQuery (packed : List ℚ) (vidx : List Int) (size : Nat)
    (q : List ℚ) (verseIndex : Int) (minScore : Option ℚ) : List Item :=
  match minScore with
  | some ms =>
    (List.range vidx.length).filterMap
      (fun row =>
        if vidx.getD row 0 = verseIndex then none
        else if dotProductQueryRow q packed size row < ms then none
        else some ⟨vidx.getD row 0, dotProductQueryRow q packed size row⟩)
  | none =>
    (List.range vidx.length).filterMap
      (fun row =>
        if vidx.getD row 0 = verseIndex then none
        else some ⟨vidx.getD row 0, dotProductQueryRow q packed size row⟩)

/-- The verse-to-verse search expressed as a query search that uses the stored
verse embedding as the query. -/
def searchByVerseIndexViaQuery (st : SearchState) (verseIndex : Int)
    (topK : Option Int) (minScore : Option ℚ) : List Item :=
  match st.embeddingsPacked, st.verseIndices with
  | some packed, some vidx =>
    match st.verseIndexToRow verseIndex with
    | none => []
    | some rowIndex =>
      match limitOf topK with
      | none =>
        sortByScoreDesc
          (scoredRowsExcludingQuery packed vidx st.embeddingSize
            (rowEmbedding packed st.embeddingSize rowIndex) verseIndex minScore)
      | some limit =>
        sortByScoreDesc
          (topkFold limit.toNat
            (scoredRowsExcludingQuery packed vidx st.embeddingSize
              (rowEmbedding packed st.embeddingSize rowIndex) verseIndex minScore))
  | _, _ => []

theorem scoredRowsExcluding_eq_query (packed : List ℚ) (vidx : List Int) (size : Nat)
    (r : Nat) (vi : Int) (ms : Option ℚ)
    (hbound : (r + 1) * size ≤ packed.length) :
    scoredRowsExcluding packed vidx size r vi ms =
      scoredRowsExcludingQuery packed vidx size (rowEmbedding packed size r) vi ms := by
  have hfun : ∀ row, dotProductRowRow packed size r row =
      dotProductQueryRow (rowEmbedding packed size r) packed size row :=
    fun row => dotRowRow_eq_query packed size r row hbound
  cases ms with
  | none => simp only [scoredRowsExcluding, scoredRowsExcludingQuery, hfun]
  | some m => simp only [scoredRowsExcluding, scoredRowsExcludingQuery, hfun]

theorem scoredRowsExcluding_ne (packed : List ℚ) (vidx : List Int) (size : Nat)
    (r : Nat) (vi : Int) (ms : Option ℚ) :
    ∀ x ∈ scoredRowsExcluding packed vidx size r vi ms, x.verseIndex ≠ vi := by
  intro x hx
  cases ms with
  | none =>
    rw [scoredRowsExcluding] at hx
    obtain ⟨row, _, heq⟩ := List.mem_filterMap.mp hx
    by_cases hvi : vidx.getD row 0 = vi
    · rw [if_pos hvi] at heq
      exact absurd heq (by simp)
    · rw [if_neg hvi] at heq
      have := Option.some.inj heq
      rw [← this]
      exact hvi
  | some m =>
    rw [scoredRowsExcluding] at hx
    obtain ⟨row, _, heq⟩ := List.mem_filterMap.mp hx
    by_cases hvi : vidx.getD row 0 = vi
    · rw [if_pos hvi] at heq
      exact absurd heq (by simp)
    · rw [if_neg hvi] at heq
      by_cases hms : dotProductRowRow packed size r row < m
      · rw [if_pos hms] at heq
        exact absurd heq (by simp)
      · rw [if_neg hms] at heq
        have := Option.some.inj heq
        rw [← this]
        exact hvi

theorem limitOf_pos {topK : Option Int} {t : Int} (h : limitOf topK = some t) : 1 ≤ t := by
  cases topK with
  | none => exact absurd h (by simp [limitOf])
  | some u =>
    by_cases hu : u ≤ 0
    · rw [show limitOf (some u) = none by simp [limitOf, hu]] at h
      exact absurd h (by simp)
    · rw [show limitOf (some u) = some u by simp [limitOf, hu]] at h
      have := Option.some.inj h
      omega

theorem searchByVerseIndexPacked_red (packed : List ℚ) (vidx : List Int) (size : Nat)
    (rowMap : Int → Option Nat) (vi : Int) (topK : Option Int) (ms : Option ℚ)
    {r : Nat} (hrow : rowMap vi = some r) :
    searchByVerseIndexPacked ⟨some packed, some vidx, size, rowMap⟩ vi topK ms =
      match limitOf topK with
      | none => sortByScoreDesc (scoredRowsExcluding packed vidx size r vi ms)
      | some limit =>
        sortByScoreDesc (topkFold limit.toNat (scoredRowsExcluding packed vidx size r vi ms)) := by
  show (match rowMap vi with
    | none => []
    | some rowIndex =>
      match limitOf topK with
      | none => sortByScoreDesc (scoredRowsExcluding packed vidx size rowIndex vi ms)
      | some limit =>
        sortByScoreDesc
          (topkFold limit.toNat (scoredRowsExcluding packed vidx size rowIndex vi ms))) = _
  rw [hrow]

theorem searchByVerseIndexViaQuery_red (packed : List ℚ) (vidx : List Int) (size : Nat)
    (rowMap : Int → Option Nat) (vi : Int) (topK : Option Int) (ms : Option ℚ)
    {r : Nat} (hrow : rowMap vi = some r) :
    searchByVerseIndexViaQuery ⟨some packed, some vidx, size, rowMap⟩ vi topK ms =
      match limitOf topK with
      | none =>
        sortByScoreDesc
          (scoredRowsExcludingQuery packed vidx size (rowEmbedding packed size r) vi ms)
      | some limit =>
        sortByScoreDesc
          (topkFold limit.toNat
            (scoredRowsExcludingQuery packed vidx size (rowEmbedding packed size r) vi ms)) := by
  show (match rowMap vi with
    | none => []
    | some rowIndex =>
      match limitOf topK with
      | none =>
        sortByScoreDesc
          (scoredRowsExcludingQuery packed vidx size (rowEmbedding packed size rowIndex) vi ms)
      | some limit =>
        sortByScoreDesc
          (topkFold limit.toNat
            (scoredRowsExcludingQuery packed vidx size (rowEmbedding packed size rowIndex)
              vi ms))) = _
  rw [hrow]

/-- C4 (amended with pairwise-distinct scores for the filtering part): the
verse-to-verse search uses the stored verse embedding as the query, never
returns the query verse itself, and — when the non-query scores are pairwise
distinct — applying `minScore` equals post-filtering the result of the same
call without `minScore`. -/
theorem C4_searchByVerseIndex (packed : List ℚ) (vidx : List Int) (size : Nat)
    (rowMap : Int → Option Nat) (vi : Int) (topK : Option Int) (ms : Option ℚ) (ms0 : ℚ)
    (r : Nat) (hrow : rowMap vi = some r) (hr : r < vidx.length)
    (hlen : packed.length = vidx.length * size)
    (hnd : ScoresNodup (↑(scoredRowsExcluding packed vidx size r vi none))) :
    (searchByVerseIndexPacked ⟨some packed, some vidx, size, rowMap⟩ vi topK ms =
      searchByVerseIndexViaQuery ⟨some packed, some vidx, size, rowMap⟩ vi topK ms) ∧
    (∀ x ∈ searchByVerseIndexPacked ⟨some packed, some vidx, size, rowMap⟩ vi topK ms,
      x.verseIndex ≠ vi) ∧
    (searchByVerseIndexPacked ⟨some packed, some vidx, size, rowMap⟩ vi topK (some ms0) =
      (searchByVerseIndexPacked ⟨some packed, some vidx, size, rowMap⟩ vi topK none).filter
        (fun it => ms0 ≤ it.score)) := by
  have hbound : (r + 1) * size ≤ packed.length := by
    rw [hlen]
    exact Nat.mul_le_mul_right size hr
  have hquery := scoredRowsExcluding_eq_query packed vidx size r vi ms hbound
  refine ⟨?_, ?_, ?_⟩
  · -- (a) same as searching with the stored embedding as the query
    rw [searchByVerseIndexPacked_red packed vidx size rowMap vi topK ms hrow,
      searchByVerseIndexViaQuery_red packed vidx size rowMap vi topK ms hrow]
    cases hlim : limitOf topK with
    | none => rw [hquery]
    | some limit => rw [hquery]
  · -- (b) the query verse never appears in the results
    intro x hx
    rw [searchByVerseIndexPacked_red packed vidx size rowMap vi topK ms hrow] at hx
    cases hlim : limitOf topK with
    | none =>
      rw [hlim] at hx
      have hx2 : x ∈ scoredRowsExcluding packed vidx size r vi ms :=
        (sortByScoreDesc_perm _).mem_iff.mp hx
      exact scoredRowsExcluding_ne packed vidx size r vi ms x hx2
    | some limit =>
      rw [hlim] at hx
      have hx2 : x ∈ topkFold limit.toNat (scoredRowsExcluding packed vidx size r vi ms) :=
        (sortByScoreDesc_perm _).mem_iff.mp hx
      rcases topkFold_subset _ _ x hx2 with hmem | hmem
      · exact absurd hmem (by simp)
      · exact scoredRowsExcluding_ne packed vidx size r vi ms x hmem
  · -- (c) minScore is a pure post-filter
    rw [searchByVerseIndexPacked_red packed vidx size rowMap vi topK (some ms0) hrow,
      searchByVerseIndexPacked_red packed vidx size rowMap vi topK none hrow]
    have hfilter := scoredRowsExcluding_filter packed vidx size r vi ms0
    have hle_items : (↑(scoredRowsExcluding packed vidx size r vi (some ms0)) :
        Multiset Item) ≤ ↑(scoredRowsExcluding packed vidx size r vi none) := by
      rw [hfilter]
      exact Multiset.coe_le.mpr (List.Sublist.subperm (List.filter_sublist _))
    have hnd1 : ScoresNodup (↑(scoredRowsExcluding packed vidx size r vi (some ms0))) :=
      scoresNodup_mono hle_items hnd
    have hup : ∀ a b : Item, b.score ≤ a.score → ms0 ≤ b.score → ms0 ≤ a.score :=
      fun a b hba hb => le_trans hb hba
    have hmf : (↑(scoredRowsExcluding packed vidx size r vi (some ms0)) : Multiset Item) =
        Multiset.filter (fun it => ms0 ≤ it.score)
          (↑(scoredRowsExcluding packed vidx size r vi none)) := by
      rw [Multiset.filter_coe, hfilter]
    cases hlim : limitOf topK with
    | none =>
      refine sorted_nodup_eq _ _ (sortByScoreDesc_sorted _)
        ((sortByScoreDesc_sorted _).filter _) ?_ ?_
      · unfold ScoresNodup
        rw [Multiset.coe_eq_coe.mpr (sortByScoreDesc_perm _)]
        exact hnd1
      · rw [Multiset.coe_eq_coe.mpr (sortByScoreDesc_perm _), hmf, ← Multiset.filter_coe,
          Multiset.coe_eq_coe.mpr (sortByScoreDesc_perm _)]
    | some limit =>
      have hk1 : 1 ≤ limit.toNat := by
        have := limitOf_pos hlim
        omega
      have hspec1 := topkFold_spec hk1 (scoredRowsExcluding packed vidx size r vi (some ms0))
        hnd1
      have hspec0 := topkFold_spec hk1 (scoredRowsExcluding packed vidx size r vi none) hnd
      have hsel_filtered := selTopK_filter (fun it => ms0 ≤ it.score) hup hnd hspec0.2
      rw [← hmf] at hsel_filtered
      have hmeq : (↑(topkFold limit.toNat
            (scoredRowsExcluding packed vidx size r vi (some ms0))) : Multiset Item) =
          Multiset.filter (fun it => ms0 ≤ it.score)
            (↑(topkFold limit.toNat (scoredRowsExcluding packed vidx size r vi none))) :=
        selTopK_unique hnd1 hspec1.2 hsel_filtered
      refine sorted_nodup_eq _ _ (sortByScoreDesc_sorted _)
        ((sortByScoreDesc_sorted _).filter _) ?_ ?_
      · unfold ScoresNodup
        rw [Multiset.coe_eq_coe.mpr (sortByScoreDesc_perm _)]
        exact scoresNodup_mono (le_trans hspec1.2.1 hle_items) hnd
      · rw [Multiset.coe_eq_coe.mpr (sortByScoreDesc_perm _), hmeq, ← Multiset.filter_coe,
          Multiset.coe_eq_coe.mpr (sortByScoreDesc_perm _)]

/-- Example state for refuting the unamended claim C4: tied scores. -/
def c4TieState : SearchState :=
  ⟨some [1, 1, 5, 5, 5], some [100, 1, 2, 3, 4], 1,
    fun x => if x = 100 then some 0 else none⟩

/-- Example state for the C4 witness: pairwise-distinct scores. -/
def c4DistinctState : SearchState :=
  ⟨some [1, 2, 5, 4, 3], some [100, 1, 2, 3, 4], 1,
    fun x => if x = 100 then some 0 else none⟩

unseal Rat.add Rat.mul in
/-- C4 counterexample: with tied scores, pre-filtering by minScore changes
which tied item survives the bounded heap, so the minScore run is not the
post-filtered run, refuting the claim as stated. -/
theorem C4_counterexample :
    searchByVerseIndexPacked c4TieState 100 (some 2) (some 2) ≠
      (searchByVerseIndexPacked c4TieState 100 (some 2) none).filter
        (fun it => (2 : ℚ) ≤ it.score) := by
  decide

unseal Rat.add Rat.mul in
/-- C4 witness: a concrete distinct-scores run where the amended theorem
applies. -/
theorem C4_witness :
    (c4DistinctState.verseIndexToRow 100 = some 0 ∧
      0 < ([100, 1, 2, 3, 4] : List Int).length ∧
      ([1, 2, 5, 4, 3] : List ℚ).length = ([100, 1, 2, 3, 4] : List Int).length * 1 ∧
      ScoresNodup (↑(scoredRowsExcluding [1, 2, 5, 4, 3] [100, 1, 2, 3, 4] 1 0 100 none))) ∧
    searchByVerseIndexPacked c4DistinctState 100 (some 2) (some 2) =
      (searchByVerseIndexPacked c4DistinctState 100 (some 2) none).filter
        (fun it => (2 : ℚ) ≤ it.score) :=
  ⟨⟨by decide, by decide, by decide, by decide⟩,
    (C4_searchByVerseIndex [1, 2, 5, 4, 3] [100, 1, 2, 3, 4] 1
      (fun x => if x = 100 then some 0 else none) 100 (some 2) (some 2) 2 0
      (by decide) (by decide) (by decide) (by decide)).2.2⟩

/-! ### Zoom-to-cursor (claim C8), from visualization.js `setZoom` -/

/-- The pan/zoom state closed over by the visualization controller. -/
structure ViewState where
  zoom : ℚ
  offsetX : ℚ
  offsetY : ℚ

/-- `setZoom(newZoom, focalPointX, focalPointY)` from visualization.js.  A
`none` focal point is the both-null else-branch, which only updates the zoom. -/
def setZoom (st : ViewState) (newZoom : ℚ) (focal : Option (ℚ × ℚ)) : ViewState :=
  match focal with
  | some (fx, fy) =>
    let oldZoom := st.zoom
    let worldX := (fx - st.offsetX) / oldZoom
    let worldY := (fy - st.offsetY) / oldZoom
    { zoom := newZoom, offsetX := fx - worldX * newZoom, offsetY := fy - worldY * newZoom }
  | none => { st with zoom := newZoom }

/-- C8: after `setZoom(newZoom, fx, fy)` the world coordinate that was under
the focal screen point before the call is still under it afterwards (exactly,
over the rationals); with no focal point the offsets are unchanged. -/
theorem C8_setZoom_focal_fixed (st : ViewState) (newZoom fx fy : ℚ)
    (hz : 0 < st.zoom) (hnz : 0 < newZoom) :
    ((fx - (setZoom st newZoom (some (fx, fy))).offsetX) /
        (setZoom st newZoom (some (fx, fy))).zoom =
      (fx - st.offsetX) / st.zoom) ∧
    ((fy - (setZoom st newZoom (some (fx, fy))).offsetY) /
        (setZoom st newZoom (some (fx, fy))).zoom =
      (fy - st.offsetY) / st.zoom) ∧
    (setZoom st newZoom (some (fx, fy))).zoom = newZoom ∧
    (setZoom st newZoom none).offsetX = st.offsetX ∧
    (setZoom st newZoom none).offsetY = st.offsetY ∧
    (setZoom st newZoom none).zoom = newZoom := by
  have hz0 : st.zoom ≠ 0 := ne_of_gt hz
  have hnz0 : newZoom ≠ 0 := ne_of_gt hnz
  refine ⟨?_, ?_, rfl, rfl, rfl, rfl⟩
  · show (fx - (fx - (fx - st.offsetX) / st.zoom * newZoom)) / newZoom =
      (fx - st.offsetX) / st.zoom
    field_simp
    ring
  · show (fy - (fy - (fy - st.offsetY) / st.zoom * newZoom)) / newZoom =
      (fy - st.offsetY) / st.zoom
    field_simp
    ring

/-- C8 witness: a concrete zoom-to-cursor call. -/
theorem C8_witness :
    (0 < (⟨2, 3, 4⟩ : ViewState).zoom ∧ (0 : ℚ) < 5) ∧
    ((1 - (setZoom ⟨2, 3, 4⟩ 5 (some (1, 2))).offsetX) /
        (setZoom ⟨2, 3, 4⟩ 5 (some (1, 2))).zoom =
      (1 - (⟨2, 3, 4⟩ : ViewState).offsetX) / (⟨2, 3, 4⟩ : ViewState).zoom) :=
  ⟨⟨by decide, by decide⟩,
    (C8_setZoom_focal_fixed ⟨2, 3, 4⟩ 5 1 2 (by decide) (by decide)).1⟩

/-! ### Column layout (claim C7), from the layout utility `calculateColumnLayout` -/

/-- The result record of `calculateColumnLayout`. -/
structure ColumnLayout where
  numColumns : Nat
  linesPerColumn : Nat
  columnLines : List (List (List Char))

/-- `calculateColumnLayout(lines, isSingleBookView)`: the view-mode constants
come from `VISUALIZATION_CONFIG` (`minLinesPerColumn` 225/300, `maxColumns`
16/8); `Math.ceil(a / b)` on naturals is `(a + b - 1) / b`; `slice` is
drop-then-take. -/
def calculateColumnLayout (lines : List (List Char)) (isSingleBookView : Bool) :
    ColumnLayout :=
  let minLinesPerColumn := if isSingleBookView then 225 else 300
  let maxColumns := if isSingleBookView then 16 else 8
  let neededColumns := (lines.length + minLinesPerColumn - 1) / minLinesPerColumn
  let numColumns := min (max 1 neededColumns) maxColumns
  let linesPerColumn := (lines.length + numColumns - 1) / numColumns
  { numColumns := numColumns
    linesPerColumn := linesPerColumn
    columnLines := (List.range numColumns).map
      (fun i => (lines.drop (linesPerColumn * i)).take linesPerColumn) }

theorem flatten_slices :
    ∀ (n : Nat) (lpc : Nat) (l : List (List Char)),
      ((List.range n).map (fun i => (l.drop (lpc * i)).take lpc)).flatten =
        l.take (lpc * n)
  | 0, lpc, l => by simp
  | n + 1, lpc, l => by
    rw [List.range_succ_eq_map, List.map_cons, List.map_map]
    have hcomp : ((fun i => (l.drop (lpc * i)).take lpc) ∘ Nat.succ) =
        (fun i => ((l.drop lpc).drop (lpc * i)).take lpc) := by
      funext i
      show (l.drop (lpc * (i + 1))).take lpc = ((l.drop lpc).drop (lpc * i)).take lpc
      rw [List.drop_drop]
      congr 2
      ring
    rw [hcomp, List.flatten_cons, flatten_slices n lpc (l.drop lpc)]
    have h1 : lpc * (n + 1) = lpc + lpc * n := by ring
    rw [Nat.mul_zero, List.drop_zero, h1, List.take_add]

/-- C7: for a non-empty lines array and either view mode, the layout picks
`numColumns = clamp(ceil(L / minLinesPerColumn), 1, maxColumns)` and
`linesPerColumn = ceil(L / numColumns)`; the slices cover the whole input
(`linesPerColumn * numColumns >= L`, lengths sum to `L`,
`numColumns <= maxColumns`) and concatenating them reconstructs the input. -/
theorem C7_calculateColumnLayout (lines : List (List Char)) (isSingleBookView : Bool)
    (_hne : lines ≠ []) :
    (calculateColumnLayout lines isSingleBookView).numColumns =
      min (max 1 ((lines.length + (if isSingleBookView then 225 else 300) - 1) /
        (if isSingleBookView then 225 else 300))) (if isSingleBookView then 16 else 8) ∧
    (calculateColumnLayout lines isSingleBookView).linesPerColumn =
      (lines.length + (calculateColumnLayout lines isSingleBookView).numColumns - 1) /
        (calculateColumnLayout lines isSingleBookView).numColumns ∧
    lines.length ≤ (calculateColumnLayout lines isSingleBookView).linesPerColumn *
      (calculateColumnLayout lines isSingleBookView).numColumns ∧
    ((calculateColumnLayout lines isSingleBookView).columnLines.map List.length).sum =
      lines.length ∧
    (calculateColumnLayout lines isSingleBookView).numColumns ≤
      (if isSingleBookView then 16 else 8) ∧
    (calculateColumnLayout lines isSingleBookView).columnLines.flatten = lines := by
  have hproj1 : (calculateColumnLayout lines isSingleBookView).numColumns =
      min (max 1 ((lines.length + (if isSingleBookView then 225 else 300) - 1) /
        (if isSingleBookView then 225 else 300))) (if isSingleBookView then 16 else 8) := rfl
  have hM1 : 1 ≤ (if isSingleBookView then 16 else 8 : Nat) := by
    cases isSingleBookView <;> decide
  have hnc1 : 1 ≤ (calculateColumnLayout lines isSingleBookView).numColumns := by
    rw [hproj1]
    exact le_min (le_max_left 1 _) hM1
  have hceil : lines.length ≤
      (calculateColumnLayout lines isSingleBookView).linesPerColumn *
        (calculateColumnLayout lines isSingleBookView).numColumns := by
    have hproj2 : (calculateColumnLayout lines isSingleBookView).linesPerColumn =
        (lines.length + (calculateColumnLayout lines isSingleBookView).numColumns - 1) /
          (calculateColumnLayout lines isSingleBookView).numColumns := rfl
    set nc := (calculateColumnLayout lines isSingleBookView).numColumns with hncdef
    have hd := Nat.div_add_mod (lines.length + nc - 1) nc
    have hmod := Nat.mod_lt (lines.length + nc - 1) (show 0 < nc by omega)
    rw [hproj2, Nat.mul_comm]
    omega
  have hflat : (calculateColumnLayout lines isSingleBookView).columnLines.flatten =
      lines := by
    have hproj3 : (calculateColumnLayout lines isSingleBookView).columnLines =
        (List.range (calculateColumnLayout lines isSingleBookView).numColumns).map
          (fun i => (lines.drop
            ((calculateColumnLayout lines isSingleBookView).linesPerColumn * i)).take
            (calculateColumnLayout lines isSingleBookView).linesPerColumn) := rfl
    rw [hproj3, flatten_slices]
    exact List.take_of_length_le hceil
  refine ⟨hproj1, rfl, hceil, ?_, ?_, hflat⟩
  · rw [← List.length_flatten, hflat]
  · rw [hproj1]
    exact min_le_right _ _

/-- C7 witness: a concrete two-line single-book layout. -/
theorem C7_witness :
    (([[ 'a' ], [ 'b' ]] : List (List Char)) ≠ []) ∧
    (calculateColumnLayout [[ 'a' ], [ 'b' ]] true).columnLines.flatten =
      [[ 'a' ], [ 'b' ]] :=
  ⟨by decide,
    (C7_calculateColumnLayout [[ 'a' ], [ 'b' ]] true (by decide)).2.2.2.2.2⟩

/-! ### Greedy word wrap (claims C2 and C6), from the layout utility `wrapVerses`

Strings are modelled as `List Char`.  `verse.split(wordSplitRegex)` with
`wordSplitRegex = /\s+/` splits on maximal whitespace runs, keeping a leading
or trailing empty token exactly as JavaScript does. -/

/-- The characters matched by the `\s` class that can occur in these strings. -/
def isWs (c : Char) : Bool :=
  c == ' ' || c == '\t' || c == '\n' || c == '\r' || c == '\x0b' || c == '\x0c'

/-- JavaScript `s.split(/\s+/)` over `List Char`, with fuel (`s.length + 1`
always suffices: every recursion consumes at least one whitespace character). -/
def splitWsF : Nat → List Char → List (List Char)
  | 0, s => [s]
  | fuel + 1, s =>
    let w := s.takeWhile (fun c => ! isWs c)
    let rest := s.dropWhile (fun c => ! isWs c)
    match rest with
    | [] => [w]
    | _ :: _ => w :: splitWsF fuel (rest.dropWhile isWs)

/-- JavaScript `s.split(/\s+/)`. -/
def splitWs (s : List Char) : List (List Char) := splitWsF (s.length + 1) s

/-- Join a list of words with single spaces (`words.join(' ')`, and also how a
wrapped verse reads when its lines are joined with single spaces). -/
def joinSp : List (List Char) → List Char
  | [] => []
  | [w] => w
  | w :: v :: ws => w ++ ' ' :: joinSp (v :: ws)

/-- The greedy accumulation loop of `wrapVerses`, threading the global `lines`
array: flush the current line when adding the next word would exceed
`lineWidth` and the current line is non-empty. -/
def wrapLoop (lineWidth : Nat) : List (List Char) → List (List Char) → List Char → Nat →
    List (List Char)
  | [], lines, currentLine, currentLen =>
    if 0 < currentLen then lines ++ [currentLine] else lines
  | w :: ws, lines, currentLine, currentLen =>
    let wordLen := w.length
    let newLen := if currentLen = 0 then wordLen else currentLen + 1 + wordLen
    if lineWidth < newLen ∧ 0 < currentLen then
      wrapLoop lineWidth ws (lines ++ [currentLine]) w wordLen
    else
      wrapLoop lineWidth ws lines
        (if currentLen = 0 then w else currentLine ++ ' ' :: w) newLen

/-- The per-verse wrapping: empty verses emit nothing, verses that fit emit a
single verbatim line, longer verses go through the greedy loop. -/
def wrapVerse (lineWidth : Nat) (verse : List Char) : List (List Char) :=
  if verse.length = 0 then []
  else if verse.length ≤ lineWidth then [verse]
  else wrapLoop lineWidth (splitWs verse) [] [] 0

/-- The verse loop of `wrapVerses`: record the start line for every verse
(even empty ones) before appending its lines. -/
def wrapVersesGo (lineWidth : Nat) : List (List Char) → List (List Char) → List Nat →
    List (List Char) × List Nat
  | [], lines, verseStartLines => (lines, verseStartLines)
  | verse :: rest, lines, verseStartLines =>
    let verseStartLines' := verseStartLines ++ [lines.length]
    if verse.length = 0 then wrapVersesGo lineWidth rest lines verseStartLines'
    else if verse.length ≤ lineWidth then
      wrapVersesGo lineWidth rest (lines ++ [verse]) verseStartLines'
    else
      wrapVersesGo lineWidth rest (wrapLoop lineWidth (splitWs verse) lines [] 0)
        verseStartLines'

/-- `wrapVerses(verses, lineWidth)` (the batching only controls progress
callbacks and yields; the emitted lines are those of the plain verse loop). -/
def wrapVerses (verses : List (List Char)) (lineWidth : Nat) :
    List (List Char) × List Nat :=
  wrapVersesGo lineWidth verses [] []

/-- Words are non-empty and contain no whitespace. -/
def goodWords (ws : List (List Char)) : Prop :=
  ∀ w ∈ ws, w ≠ [] ∧ ∀ c ∈ w, isWs c = false

instance : DecidablePred goodWords := fun ws =>
  inferInstanceAs (Decidable (∀ w ∈ ws, w ≠ [] ∧ ∀ c ∈ w, isWs c = false))

/-- A verse whose words are separated by single spaces (no leading, trailing
or doubled whitespace). -/
def goodVerse (verse : List Char) : Prop :=
  verse = [] ∨ ∃ ws, ws ≠ [] ∧ goodWords ws ∧ verse = joinSp ws

/-- Threading the `lines` accumulator through the greedy loop just prepends it. -/
theorem wrapLoop_append (lineWidth : Nat) :
    ∀ (ws lines : List (List Char)) (cur : List Char) (len : Nat),
      wrapLoop lineWidth ws lines cur len = lines ++ wrapLoop lineWidth ws [] cur len
  | [], lines, cur, len => by
    show (if 0 < len then lines ++ [cur] else lines) =
      lines ++ (if 0 < len then [] ++ [cur] else [])
    by_cases h : 0 < len
    · rw [if_pos h, if_pos h, List.nil_append]
    · rw [if_neg h, if_neg h, List.append_nil]
  | w :: ws, lines, cur, len => by
    show (if lineWidth < (if len = 0 then w.length else len + 1 + w.length) ∧ 0 < len then
        wrapLoop lineWidth ws (lines ++ [cur]) w w.length
      else wrapLoop lineWidth ws lines (if len = 0 then w else cur ++ ' ' :: w)
        (if len = 0 then w.length else len + 1 + w.length)) =
      lines ++ (if lineWidth < (if len = 0 then w.length else len + 1 + w.length) ∧ 0 < len then
        wrapLoop lineWidth ws ([] ++ [cur]) w w.length
      else wrapLoop lineWidth ws [] (if len = 0 then w else cur ++ ' ' :: w)
        (if len = 0 then w.length else len + 1 + w.length))
    by_cases h : lineWidth < (if len = 0 then w.length else len + 1 + w.length) ∧ 0 < len
    · rw [if_pos h, if_pos h, List.nil_append,
        wrapLoop_append lineWidth ws (lines ++ [cur]) w w.length,
        wrapLoop_append lineWidth ws [cur] w w.length, List.append_assoc]
    · rw [if_neg h, if_neg h,
        wrapLoop_append lineWidth ws lines _ _,
        wrapLoop_append lineWidth ws [] _ _, List.nil_append]

theorem wrapVersesGo_cons (W : Nat) (verse : List Char) (rest lines : List (List Char))
    (vsl : List Nat) :
    wrapVersesGo W (verse :: rest) lines vsl =
      wrapVersesGo W rest (lines ++ wrapVerse W verse) (vsl ++ [lines.length]) := by
  show (if verse.length = 0 then wrapVersesGo W rest lines (vsl ++ [lines.length])
    else if verse.length ≤ W then
      wrapVersesGo W rest (lines ++ [verse]) (vsl ++ [lines.length])
    else
      wrapVersesGo W rest (wrapLoop W (splitWs verse) lines [] 0)
        (vsl ++ [lines.length])) = _
  unfold wrapVerse
  by_cases h0 : verse.length = 0
  · rw [if_pos h0, if_pos h0, List.append_nil]
  · rw [if_neg h0, if_neg h0]
    by_cases h1 : verse.length ≤ W
    · rw [if_pos h1, if_pos h1]
    · rw [if_neg h1, if_neg h1, wrapLoop_append]

theorem wrapVersesGo_spec (W : Nat) :
    ∀ (verses lines : List (List Char)) (vsl : List Nat),
      wrapVersesGo W verses lines vsl =
        (lines ++ (verses.map (wrapVerse W)).flatten,
         vsl ++ (List.range verses.length).map
           (fun i => lines.length + ((verses.take i).map (wrapVerse W)).flatten.length))
  | [], lines, vsl => by
    show (lines, vsl) = _
    rw [List.map_nil, List.flatten_nil, List.append_nil, List.length_nil, List.range_zero,
      List.map_nil, List.append_nil]
  | verse :: rest, lines, vsl => by
    rw [wrapVersesGo_cons, wrapVersesGo_spec W rest (lines ++ wrapVerse W verse)
      (vsl ++ [lines.length])]
    refine Prod.ext ?_ ?_
    · show (lines ++ wrapVerse W verse) ++ (rest.map (wrapVerse W)).flatten =
        lines ++ ((verse :: rest).map (wrapVerse W)).flatten
      rw [List.map_cons, List.flatten_cons, List.append_assoc]
    · show (vsl ++ [lines.length]) ++ (List.range rest.length).map
          (fun i => (lines ++ wrapVerse W verse).length +
            ((rest.take i).map (wrapVerse W)).flatten.length) =
        vsl ++ (List.range (rest.length + 1)).map
          (fun i => lines.length + (((verse :: rest).take i).map (wrapVerse W)).flatten.length)
      rw [List.range_succ_eq_map, List.map_cons, List.map_map, List.append_assoc]
      congr 1
      show lines.length :: _ = (lines.length + (([] : List (List Char))).length) :: _
      rw [List.length_nil, Nat.add_zero]
      congr 1
      refine List.map_congr_left ?_
      intro i _
      show (lines ++ wrapVerse W verse).length +
          ((rest.take i).map (wrapVerse W)).flatten.length =
        lines.length + (((verse :: rest).take (i + 1)).map (wrapVerse W)).flatten.length
      rw [List.length_append]
      show _ = lines.length + ((verse :: rest.take i).map (wrapVerse W)).flatten.length
      rw [List.map_cons, List.flatten_cons, List.length_append]
      omega

theorem wrapVerses_spec (verses : List (List Char)) (W : Nat) :
    wrapVerses verses W =
      ((verses.map (wrapVerse W)).flatten,
       (List.range verses.length).map
         (fun i => ((verses.take i).map (wrapVerse W)).flatten.length)) := by
  unfold wrapVerses
  rw [wrapVersesGo_spec]
  refine Prod.ext ?_ ?_
  · show [] ++ _ = _
    rw [List.nil_append]
  · show [] ++ (List.range verses.length).map
        (fun i => ([] : List (List Char)).length +
          ((verses.take i).map (wrapVerse W)).flatten.length) = _
    rw [List.nil_append]
    refine List.map_congr_left ?_
    intro i _
    rw [List.length_nil, Nat.zero_add]

theorem getD_map_range {f : Nat → Nat} {n i : Nat} (h : i < n) :
    (((List.range n).map f).getD i 0) = f i := by
  rw [List.getD_eq_getElem?_getD, List.getElem?_map, List.getElem?_range h]
  rfl

theorem flatten_take_succ {verses : List (List Char)} {W : Nat} {i : Nat}
    (h : i < verses.length) :
    ((verses.take (i + 1)).map (wrapVerse W)).flatten.length =
      ((verses.take i).map (wrapVerse W)).flatten.length +
        (wrapVerse W (verses.getD i [])).length := by
  rw [List.take_succ, List.getElem?_eq_getElem h]
  show ((verses.take i ++ [verses[i]]).map (wrapVerse W)).flatten.length = _
  rw [List.map_append, List.flatten_append, List.length_append]
  congr 2
  rw [List.map_cons, List.map_nil, List.flatten_cons, List.flatten_nil, List.append_nil]
  congr 1
  rw [List.getD_eq_getElem?_getD, List.getElem?_eq_getElem h]
  rfl

/-- The lines array decomposes around verse `i`. -/
theorem lines_decomp {verses : List (List Char)} {W : Nat} {i : Nat}
    (h : i < verses.length) :
    (verses.map (wrapVerse W)).flatten =
      ((verses.take i).map (wrapVerse W)).flatten ++
        (wrapVerse W (verses.getD i []) ++
          ((verses.drop (i + 1)).map (wrapVerse W)).flatten) := by
  conv_lhs => rw [← List.take_append_drop (i + 1) verses]
  rw [List.take_succ, List.getElem?_eq_getElem h]
  show ((verses.take i ++ [verses[i]] ++ verses.drop (i + 1)).map (wrapVerse W)).flatten = _
  rw [List.map_append, List.map_append, List.flatten_append, List.flatten_append]
  rw [List.append_assoc]
  congr 1
  congr 1
  · show (([verses[i]]).map (wrapVerse W)).flatten = _
    rw [List.map_cons, List.map_nil, List.flatten_cons, List.flatten_nil, List.append_nil]
    congr 1
    rw [List.getD_eq_getElem?_getD, List.getElem?_eq_getElem h]
    rfl

/-- The slice of lines between consecutive `verseStartLines` entries (or up
to the end of the lines array for the last verse) is exactly the wrapping of
that verse. -/
theorem wrapVerses_segment (verses : List (List Char)) (W : Nat) :
    ∀ i, i < verses.length →
      (((wrapVerses verses W).1).drop (((wrapVerses verses W).2).getD i 0)).take
          ((((wrapVerses verses W).2).getD (i + 1) ((wrapVerses verses W).1).length) -
            ((wrapVerses verses W).2).getD i 0) =
        wrapVerse W (verses.getD i []) := by
  rw [wrapVerses_spec]
  intro i hi
  rw [getD_map_range hi]
  have hdec := lines_decomp (W := W) hi
  have hend : (((List.range verses.length).map
      (fun j => ((verses.take j).map (wrapVerse W)).flatten.length)).getD (i + 1)
        ((verses.map (wrapVerse W)).flatten.length)) =
      ((verses.take i).map (wrapVerse W)).flatten.length +
        (wrapVerse W (verses.getD i [])).length := by
    by_cases hlast : i + 1 < verses.length
    · rw [List.getD_eq_getElem?_getD, List.getElem?_map, List.getElem?_range hlast]
      show ((verses.take (i + 1)).map (wrapVerse W)).flatten.length = _
      exact flatten_take_succ (by omega)
    · have hieq : i + 1 = verses.length := by omega
      have hnone : (((List.range verses.length).map
          (fun j => ((verses.take j).map (wrapVerse W)).flatten.length))[i + 1]?) =
          none := by
        rw [List.getElem?_eq_none]
        rw [List.length_map, List.length_range]
        omega
      rw [List.getD_eq_getElem?_getD, hnone]
      show (verses.map (wrapVerse W)).flatten.length = _
      have hdrop : verses.drop (i + 1) = [] := by
        rw [List.drop_eq_nil_iff]
        omega
      rw [hdec, hdrop, List.map_nil, List.flatten_nil, List.append_nil,
        List.length_append]
  rw [hend]
  have harith : ((verses.take i).map (wrapVerse W)).flatten.length +
      (wrapVerse W (verses.getD i [])).length -
      ((verses.take i).map (wrapVerse W)).flatten.length =
      (wrapVerse W (verses.getD i [])).length := by omega
  rw [harith, hdec, List.drop_left]
  rw [List.take_left]

/-- C6: `verseStartLines` has one entry per verse, entry `i` counts the lines
emitted before verse `i`, entries are monotone, and the slice of lines from
`verseStartLines[i]` up to the next entry (or the end of the array for the
last verse) is exactly the wrapping of verse `i`, so each verse occupies a
contiguous, non-overlapping span of lines. -/
theorem C6_wrapVerses_spans (verses : List (List Char)) (W : Nat) (_hW : 0 < W) :
    ((wrapVerses verses W).2).length = verses.length ∧
    (∀ i, i < verses.length →
      ((wrapVerses verses W).2).getD i 0 =
        ((verses.take i).map (wrapVerse W)).flatten.length) ∧
    (∀ i, i + 1 < verses.length →
      ((wrapVerses verses W).2).getD i 0 ≤ ((wrapVerses verses W).2).getD (i + 1) 0) ∧
    (∀ i, i < verses.length →
      (((wrapVerses verses W).1).drop (((wrapVerses verses W).2).getD i 0)).take
          ((((wrapVerses verses W).2).getD (i + 1) ((wrapVerses verses W).1).length) -
            ((wrapVerses verses W).2).getD i 0) =
        wrapVerse W (verses.getD i [])) := by
  refine ⟨?_, ?_, ?_, wrapVerses_segment verses W⟩
  · rw [wrapVerses_spec, List.length_map, List.length_range]
  · intro i hi
    rw [wrapVerses_spec]
    exact getD_map_range hi
  · intro i hi
    rw [wrapVerses_spec, getD_map_range (by omega), getD_map_range hi]
    rw [flatten_take_succ (by omega)]
    omega

/-- C6 witness: a two-verse wrap where the second verse needs its own line. -/
theorem C6_witness :
    (0 < 3 ∧ 1 < ([[ 'a' ], [ 'b', 'c', 'd', 'e' ]] : List (List Char)).length) ∧
    (((wrapVerses [[ 'a' ], [ 'b', 'c', 'd', 'e' ]] 3).1).drop
        (((wrapVerses [[ 'a' ], [ 'b', 'c', 'd', 'e' ]] 3).2).getD 1 0)).take
        ((((wrapVerses [[ 'a' ], [ 'b', 'c', 'd', 'e' ]] 3).2).getD 2
          ((wrapVerses [[ 'a' ], [ 'b', 'c', 'd', 'e' ]] 3).1).length) -
          ((wrapVerses [[ 'a' ], [ 'b', 'c', 'd', 'e' ]] 3).2).getD 1 0) =
      wrapVerse 3 (([[ 'a' ], [ 'b', 'c', 'd', 'e' ]] : List (List Char)).getD 1 []) :=
  ⟨⟨by decide, by decide⟩,
    (C6_wrapVerses_spans [[ 'a' ], [ 'b', 'c', 'd', 'e' ]] 3 (by decide)).2.2.2 1 (by decide)⟩

/-! ### Correctness of the greedy wrap on single-spaced verses (claim C2) -/

theorem joinSp_cons {w : List Char} {ws : List (List Char)} (h : ws ≠ []) :
    joinSp (w :: ws) = w ++ ' ' :: joinSp ws := by
  cases ws with
  | nil => exact absurd rfl h
  | cons v rest => rfl

theorem goodWords_cons {w : List Char} {ws : List (List Char)}
    (h : goodWords (w :: ws)) : (w ≠ [] ∧ ∀ c ∈ w, isWs c = false) ∧ goodWords ws := by
  constructor
  · exact h w (List.mem_cons_self w ws)
  · intro u hu
    exact h u (List.mem_cons_of_mem w hu)

theorem goodWords_append {a b : List (List Char)} (ha : goodWords a) (hb : goodWords b) :
    goodWords (a ++ b) := by
  intro w hw
  rcases List.mem_append.mp hw with h | h
  · exact ha w h
  · exact hb w h

theorem goodWords_singleton {w : List Char} (hne : w ≠ [])
    (hws : ∀ c ∈ w, isWs c = false) : goodWords [w] := by
  intro u hu
  rcases List.mem_singleton.mp hu with rfl
  exact ⟨hne, hws⟩

theorem joinSp_length_pos {ws : List (List Char)} (hg : goodWords ws) (hne : ws ≠ []) :
    0 < (joinSp ws).length := by
  cases ws with
  | nil => exact absurd rfl hne
  | cons w rest =>
    have hw := (goodWords_cons hg).1.1
    cases rest with
    | nil =>
      show 0 < w.length
      cases w with
      | nil => exact absurd rfl hw
      | cons c t => simp
    | cons v vs =>
      rw [joinSp_cons (by simp)]
      rw [List.length_append]
      cases w with
      | nil => exact absurd rfl hw
      | cons c t => simp

theorem joinSp_append {a b : List (List Char)} (ha : a ≠ []) (hb : b ≠ []) :
    joinSp (a ++ b) = joinSp a ++ ' ' :: joinSp b := by
  induction a with
  | nil => exact absurd rfl ha
  | cons w rest ih =>
    cases rest with
    | nil =>
      show joinSp (w :: b) = joinSp [w] ++ ' ' :: joinSp b
      rw [joinSp_cons hb]
      rfl
    | cons v vs =>
      have hrb : (v :: vs) ++ b ≠ [] := by simp
      show joinSp (w :: ((v :: vs) ++ b)) = joinSp (w :: v :: vs) ++ ' ' :: joinSp b
      rw [joinSp_cons hrb, joinSp_cons (by simp), ih (by simp), List.append_assoc]
      rfl

theorem wrapLoop_ne_nil (W : Nat) :
    ∀ (ws : List (List Char)) (cur : List Char) (len : Nat), goodWords ws → 0 < len →
      wrapLoop W ws [] cur len ≠ []
  | [], cur, len, _, hlen => by
    show (if 0 < len then [] ++ [cur] else []) ≠ []
    rw [if_pos hlen]
    simp
  | w :: ws, cur, len, hg, hlen => by
    show (if W < (if len = 0 then w.length else len + 1 + w.length) ∧ 0 < len then
        wrapLoop W ws ([] ++ [cur]) w w.length
      else wrapLoop W ws [] (if len = 0 then w else cur ++ ' ' :: w)
        (if len = 0 then w.length else len + 1 + w.length)) ≠ []
    by_cases hc : W < (if len = 0 then w.length else len + 1 + w.length) ∧ 0 < len
    · rw [if_pos hc, List.nil_append, wrapLoop_append]
      simp
    · rw [if_neg hc]
      have hlen0 : ¬ len = 0 := by omega
      rw [if_neg hlen0, if_neg hlen0]
      exact wrapLoop_ne_nil W ws (cur ++ ' ' :: w) (len + 1 + w.length)
        (goodWords_cons hg).2 (by omega)

theorem wrapLoop_join (W : Nat) :
    ∀ (ws cs : List (List Char)), goodWords ws → goodWords cs →
      joinSp (wrapLoop W ws [] (joinSp cs) (joinSp cs).length) = joinSp (cs ++ ws)
  | [], cs, _, hcs => by
    show joinSp (if 0 < (joinSp cs).length then [] ++ [joinSp cs] else []) = joinSp (cs ++ [])
    rw [List.append_nil]
    cases cs with
    | nil => rfl
    | cons c cs' =>
      rw [if_pos (joinSp_length_pos hcs (by simp))]
      rfl
  | w :: ws, cs, hg, hcs => by
    have hw := (goodWords_cons hg).1
    have hws := (goodWords_cons hg).2
    have hwlen : 0 < w.length := by
      cases w with
      | nil => exact absurd rfl hw.1
      | cons c t => simp
    show joinSp (if W < (if (joinSp cs).length = 0 then w.length
          else (joinSp cs).length + 1 + w.length) ∧ 0 < (joinSp cs).length then
        wrapLoop W ws ([] ++ [joinSp cs]) w w.length
      else wrapLoop W ws []
        (if (joinSp cs).length = 0 then w else joinSp cs ++ ' ' :: w)
        (if (joinSp cs).length = 0 then w.length
          else (joinSp cs).length + 1 + w.length)) = joinSp (cs ++ w :: ws)
    by_cases hc : W < (if (joinSp cs).length = 0 then w.length
        else (joinSp cs).length + 1 + w.length) ∧ 0 < (joinSp cs).length
    · rw [if_pos hc, List.nil_append, wrapLoop_append]
      have hcsne : cs ≠ [] := by
        intro hnil
        rw [hnil] at hc
        revert hc
        show ¬ (W < _ ∧ 0 < (joinSp []).length)
        rw [show joinSp [] = [] from rfl]
        simp
      have hwj : w = joinSp [w] := rfl
      have hrec := wrapLoop_join W ws [w] hws (goodWords_singleton hw.1 hw.2)
      have hne := wrapLoop_ne_nil W ws w w.length hws hwlen
      rw [joinSp_append (by simp) hne]
      have hrec2 : joinSp (wrapLoop W ws [] w w.length) = joinSp (w :: ws) := hrec
      rw [show joinSp [joinSp cs] = joinSp cs from rfl, hrec2,
        joinSp_append hcsne (by simp)]
    · rw [if_neg hc]
      by_cases hz : (joinSp cs).length = 0
      · have hcsnil : cs = [] := by
          by_contra hne
          have := joinSp_length_pos hcs hne
          omega
        rw [if_pos hz, if_pos hz]
        have hrec := wrapLoop_join W ws [w] hws (goodWords_singleton hw.1 hw.2)
        rw [hcsnil]
        exact hrec
      · rw [if_neg hz, if_neg hz]
        have hcsne : cs ≠ [] := by
          intro hnil
          rw [hnil] at hz
          exact hz rfl
        have hcur : joinSp cs ++ ' ' :: w = joinSp (cs ++ [w]) := by
          rw [joinSp_append hcsne (by simp)]
          rfl
        have hlen2 : (joinSp cs).length + 1 + w.length = (joinSp (cs ++ [w])).length := by
          rw [← hcur, List.length_append, List.length_cons]
          omega
        rw [hcur, hlen2, wrapLoop_join W ws (cs ++ [w]) hws
          (goodWords_append hcs (goodWords_singleton hw.1 hw.2)), List.append_assoc]
        rfl

/-- A wrapped line is acceptable when it fits the width or is a single
whitespace-free word (which the loop never splits). -/
def lineOk (W : Nat) (line : List Char) : Prop :=
  line.length ≤ W ∨ ∀ c ∈ line, isWs c = false

theorem wrapLoop_bound (W : Nat) :
    ∀ (ws lines : List (List Char)) (cur : List Char) (len : Nat), goodWords ws →
      (∀ l ∈ lines, lineOk W l) → len = cur.length → lineOk W cur →
      ∀ l ∈ wrapLoop W ws lines cur len, lineOk W l
  | [], lines, cur, len, _, hlines, _, hcur => by
    intro l hl
    revert hl
    show l ∈ (if 0 < len then lines ++ [cur] else lines) → lineOk W l
    by_cases hp : 0 < len
    · rw [if_pos hp]
      intro hl
      rcases List.mem_append.mp hl with h | h
      · exact hlines l h
      · rcases List.mem_singleton.mp h with rfl
        exact hcur
    · rw [if_neg hp]
      intro hl
      exact hlines l hl
  | w :: ws, lines, cur, len, hg, hlines, hlencur, hcur => by
    intro l hl
    have hw := (goodWords_cons hg).1
    have hws := (goodWords_cons hg).2
    revert hl
    show l ∈ (if W < (if len = 0 then w.length else len + 1 + w.length) ∧ 0 < len then
        wrapLoop W ws (lines ++ [cur]) w w.length
      else wrapLoop W ws lines (if len = 0 then w else cur ++ ' ' :: w)
        (if len = 0 then w.length else len + 1 + w.length)) → lineOk W l
    by_cases hc : W < (if len = 0 then w.length else len + 1 + w.length) ∧ 0 < len
    · rw [if_pos hc]
      intro hl
      refine wrapLoop_bound W ws (lines ++ [cur]) w w.length hws ?_ rfl ?_ l hl
      · intro u hu
        rcases List.mem_append.mp hu with h | h
        · exact hlines u h
        · rcases List.mem_singleton.mp h with rfl
          exact hcur
      · exact Or.inr hw.2
    · rw [if_neg hc]
      intro hl
      by_cases hz : len = 0
      · simp only [if_pos hz] at hl
        exact wrapLoop_bound W ws lines w w.length hws hlines rfl (Or.inr hw.2) l hl
      · simp only [if_neg hz] at hl
        have hle : len + 1 + w.length ≤ W := by
          rcases not_and_or.mp hc with hnc | hnc
          · rw [if_neg hz] at hnc
            omega
          · omega
        refine wrapLoop_bound W ws lines (cur ++ ' ' :: w) (len + 1 + w.length) hws hlines
          ?_ ?_ l hl
        · rw [List.length_append, List.length_cons]
          omega
        · left
          rw [List.length_append, List.length_cons]
          omega

theorem takeWhile_word {w : List Char} {a : Char} {r : List Char}
    (hw : ∀ c ∈ w, isWs c = false) (ha : isWs a = true) :
    (w ++ a :: r).takeWhile (fun c => ! isWs c) = w ∧
    (w ++ a :: r).dropWhile (fun c => ! isWs c) = a :: r := by
  induction w with
  | nil =>
    constructor
    · rw [List.nil_append, List.takeWhile_cons_of_neg (by simp [ha])]
    · rw [List.nil_append, List.dropWhile_cons_of_neg (by simp [ha])]
  | cons c t ih =>
    have hc : isWs c = false := hw c (List.mem_cons_self c t)
    have ht : ∀ u ∈ t, isWs u = false := fun u hu => hw u (List.mem_cons_of_mem c hu)
    obtain ⟨ih1, ih2⟩ := ih ht
    constructor
    · show ((c :: (t ++ a :: r)).takeWhile (fun c => ! isWs c)) = c :: t
      rw [List.takeWhile_cons_of_pos (by simp [hc]), ih1]
    · show ((c :: (t ++ a :: r)).dropWhile (fun c => ! isWs c)) = a :: r
      rw [List.dropWhile_cons_of_pos (by simp [hc]), ih2]

theorem takeWhile_word_all {w : List Char} (hw : ∀ c ∈ w, isWs c = false) :
    w.takeWhile (fun c => ! isWs c) = w ∧ w.dropWhile (fun c => ! isWs c) = [] := by
  induction w with
  | nil => exact ⟨rfl, rfl⟩
  | cons c t ih =>
    have hc : isWs c = false := hw c (List.mem_cons_self c t)
    have ht : ∀ u ∈ t, isWs u = false := fun u hu => hw u (List.mem_cons_of_mem c hu)
    obtain ⟨ih1, ih2⟩ := ih ht
    constructor
    · rw [List.takeWhile_cons_of_pos (by simp [hc]), ih1]
    · rw [List.dropWhile_cons_of_pos (by simp [hc]), ih2]

theorem dropWhile_ws_joinSp {ws : List (List Char)} (hg : goodWords ws) (hne : ws ≠ []) :
    (joinSp ws).dropWhile isWs = joinSp ws := by
  cases ws with
  | nil => exact absurd rfl hne
  | cons w rest =>
    have hw := (goodWords_cons hg).1
    obtain ⟨c, t, rfl⟩ : ∃ c t, w = c :: t := by
      cases w with
      | nil => exact absurd rfl hw.1
      | cons c t => exact ⟨c, t, rfl⟩
    have hc : isWs c = false := hw.2 c (List.mem_cons_self c t)
    cases rest with
    | nil =>
      show ((c :: t).dropWhile isWs) = c :: t
      rw [List.dropWhile_cons_of_neg (by simp [hc])]
    | cons v vs =>
      rw [joinSp_cons (by simp)]
      show (((c :: t) ++ ' ' :: joinSp (v :: vs)).dropWhile isWs) = _
      rw [List.cons_append, List.dropWhile_cons_of_neg (by simp [hc])]

theorem splitWsF_join :
    ∀ (fuel : Nat) (ws : List (List Char)), goodWords ws → ws ≠ [] →
      (joinSp ws).length < fuel → splitWsF fuel (joinSp ws) = ws
  | 0, ws, _, _, hlen => by omega
  | _ + 1, [], _, hne, _ => absurd rfl hne
  | fuel + 1, [w], hg, _, _ => by
    have hw := (goodWords_cons hg).1
    obtain ⟨h1, h2⟩ := takeWhile_word_all hw.2
    show (match (joinSp [w]).dropWhile (fun c => ! isWs c) with
      | [] => [(joinSp [w]).takeWhile (fun c => ! isWs c)]
      | _ :: _ => (joinSp [w]).takeWhile (fun c => ! isWs c) ::
          splitWsF fuel (((joinSp [w]).dropWhile (fun c => ! isWs c)).dropWhile isWs)) = [w]
    rw [show joinSp [w] = w from rfl, h1, h2]
  | fuel + 1, w :: v :: rest, hg, _, hlen => by
    have hw := (goodWords_cons hg).1
    have hvs := (goodWords_cons hg).2
    have hjoin : joinSp (w :: v :: rest) = w ++ ' ' :: joinSp (v :: rest) :=
      joinSp_cons (by simp)
    obtain ⟨h1, h2⟩ := takeWhile_word (a := ' ') (r := joinSp (v :: rest)) hw.2 (by decide)
    show (match (joinSp (w :: v :: rest)).dropWhile (fun c => ! isWs c) with
      | [] => [(joinSp (w :: v :: rest)).takeWhile (fun c => ! isWs c)]
      | _ :: _ => (joinSp (w :: v :: rest)).takeWhile (fun c => ! isWs c) ::
          splitWsF fuel (((joinSp (w :: v :: rest)).dropWhile
            (fun c => ! isWs c)).dropWhile isWs)) = w :: v :: rest
    rw [hjoin, h1, h2]
    show w :: splitWsF fuel ((' ' :: joinSp (v :: rest)).dropWhile isWs) = w :: v :: rest
    rw [List.dropWhile_cons_of_pos (by decide), dropWhile_ws_joinSp hvs (by simp)]
    have hlen2 : (joinSp (v :: rest)).length < fuel := by
      rw [hjoin, List.length_append, List.length_cons] at hlen
      omega
    rw [splitWsF_join fuel (v :: rest) hvs (by simp) hlen2]

theorem splitWs_join {ws : List (List Char)} (hg : goodWords ws) (hne : ws ≠ []) :
    splitWs (joinSp ws) = ws :=
  splitWsF_join ((joinSp ws).length + 1) ws hg hne (by omega)

theorem goodWords_nil : goodWords [] := by
  intro w hw
  exact absurd hw (List.not_mem_nil w)

theorem wrapVerse_join (W : Nat) (verse : List Char) (hgood : goodVerse verse) :
    joinSp (wrapVerse W verse) = verse := by
  rcases hgood with rfl | ⟨ws, hne, hg, rfl⟩
  · rfl
  · unfold wrapVerse
    by_cases h0 : (joinSp ws).length = 0
    · have := joinSp_length_pos hg hne
      omega
    · rw [if_neg h0]
      by_cases h1 : (joinSp ws).length ≤ W
      · rw [if_pos h1]
        rfl
      · rw [if_neg h1, splitWs_join hg hne]
        exact wrapLoop_join W ws [] hg goodWords_nil

theorem wrapVerse_width (W : Nat) (verse : List Char) (hgood : goodVerse verse) :
    ∀ l ∈ wrapVerse W verse, lineOk W l := by
  intro l hl
  rcases hgood with rfl | ⟨ws, hne, hg, rfl⟩
  · rw [show wrapVerse W [] = [] from rfl] at hl
    exact absurd hl (List.not_mem_nil l)
  · rw [wrapVerse] at hl
    by_cases h0 : (joinSp ws).length = 0
    · rw [if_pos h0] at hl
      exact absurd hl (List.not_mem_nil l)
    · rw [if_neg h0] at hl
      by_cases h1 : (joinSp ws).length ≤ W
      · rw [if_pos h1] at hl
        rcases List.mem_singleton.mp hl with rfl
        exact Or.inl h1
      · rw [if_neg h1, splitWs_join hg hne] at hl
        exact wrapLoop_bound W ws [] [] 0 hg
          (fun u hu => absurd hu (List.not_mem_nil u)) rfl
          (Or.inl (by simp)) l hl

/-- C2 (amended to verses whose words are separated by single spaces): for
every such verse list and every positive lineWidth, joining the lines that
`wrapVerses` produced for a verse with single spaces reproduces the verse, and
no produced line exceeds the width unless it is a single word (contains no
whitespace) longer than the width. -/
theorem C2_wrapVerses_roundtrip (verses : List (List Char)) (W : Nat) (_hW : 0 < W)
    (hgood : ∀ v ∈ verses, goodVerse v) :
    ∀ i, i < verses.length →
      joinSp ((((wrapVerses verses W).1).drop (((wrapVerses verses W).2).getD i 0)).take
          ((((wrapVerses verses W).2).getD (i + 1) ((wrapVerses verses W).1).length) -
            ((wrapVerses verses W).2).getD i 0)) = verses.getD i [] ∧
      ∀ l ∈ (((wrapVerses verses W).1).drop (((wrapVerses verses W).2).getD i 0)).take
          ((((wrapVerses verses W).2).getD (i + 1) ((wrapVerses verses W).1).length) -
            ((wrapVerses verses W).2).getD i 0),
        l.length ≤ W ∨ ∀ c ∈ l, isWs c = false := by
  intro i hi
  have hseg := wrapVerses_segment verses W i hi
  have hmem : verses.getD i [] ∈ verses := by
    rw [List.getD_eq_getElem?_getD, List.getElem?_eq_getElem hi]
    exact List.getElem_mem hi
  rw [hseg]
  exact ⟨wrapVerse_join W _ (hgood _ hmem), wrapVerse_width W _ (hgood _ hmem)⟩

/-- C2 counterexample: a verse with a doubled space is not reproduced, because
the wrap splits on whitespace runs and rejoins with single spaces. -/
theorem C2_counterexample :
    ¬ joinSp ((((wrapVerses [[ 'a', ' ', ' ', 'b' ]] 3).1).drop
        (((wrapVerses [[ 'a', ' ', ' ', 'b' ]] 3).2).getD 0 0)).take
        ((((wrapVerses [[ 'a', ' ', ' ', 'b' ]] 3).2).getD 1
          ((wrapVerses [[ 'a', ' ', ' ', 'b' ]] 3).1).length) -
          ((wrapVerses [[ 'a', ' ', ' ', 'b' ]] 3).2).getD 0 0)) =
      [ 'a', ' ', ' ', 'b' ] := by
  decide

/-- C2 witness: a single-spaced verse longer than the width wraps and joins
back to itself. -/
theorem C2_witness :
    (0 < 3 ∧ (∀ v ∈ ([[ 'a', 'b', ' ', 'c', 'd' ]] : List (List Char)), goodVerse v) ∧
      0 < ([[ 'a', 'b', ' ', 'c', 'd' ]] : List (List Char)).length) ∧
    joinSp ((((wrapVerses [[ 'a', 'b', ' ', 'c', 'd' ]] 3).1).drop
        (((wrapVerses [[ 'a', 'b', ' ', 'c', 'd' ]] 3).2).getD 0 0)).take
        ((((wrapVerses [[ 'a', 'b', ' ', 'c', 'd' ]] 3).2).getD 1
          ((wrapVerses [[ 'a', 'b', ' ', 'c', 'd' ]] 3).1).length) -
          ((wrapVerses [[ 'a', 'b', ' ', 'c', 'd' ]] 3).2).getD 0 0)) =
      ([[ 'a', 'b', ' ', 'c', 'd' ]] : List (List Char)).getD 0 [] := by
  have hgood : ∀ v ∈ ([[ 'a', 'b', ' ', 'c', 'd' ]] : List (List Char)), goodVerse v := by
    intro v hv
    rcases List.mem_singleton.mp hv with rfl
    right
    exact ⟨[[ 'a', 'b' ], [ 'c', 'd' ]], by decide, by decide, by decide⟩
  exact ⟨⟨by decide, hgood, by decide⟩,
    (C2_wrapVerses_roundtrip [[ 'a', 'b', ' ', 'c', 'd' ]] 3 (by decide) hgood 0
      (by decide)).1⟩

/-! ### Literal text search (claim C3), from `SearchManager.performSearch`

The source escapes every regex metacharacter in the term and compiles the
escaped term with the `gi` flags, so the `exec` loop performs literal
case-insensitive matching that restarts after the end of each match.  We model
that scan directly over `List Char`. -/

/-- ASCII lowering, the observable effect of the `i` flag on these strings. -/
def charLower (c : Char) : Char :=
  if 'A' ≤ c ∧ c ≤ 'Z' then Char.ofNat (c.toNat + 32) else c

/-- Case-insensitive prefix test of the term against a suffix of the line. -/
def ciPref : List Char → List Char → Bool
  | [], _ => true
  | _ :: _, [] => false
  | t :: ts, s :: ss => charLower t == charLower s && ciPref ts ss

/-- The `exec` loop on one line: at each position try the term; on a match
record the position and resume after the match, otherwise advance one
character.  `fuel` bounds the iteration count; `s.length` always suffices. -/
def scanLineF (term : List Char) : Nat → List Char → Nat → List Nat
  | 0, _, _ => []
  | fuel + 1, s, pos =>
    match s with
    | [] => []
    | c :: rest =>
      if ciPref term (c :: rest) then
        pos :: scanLineF term fuel (List.drop (term.length - 1) rest) (pos + term.length)
      else scanLineF term fuel rest (pos + 1)

/-- All match start positions of the term on a line, left to right. -/
def scanLine (term s : List Char) (pos : Nat) : List Nat := scanLineF term s.length s pos

/-- One recorded match: `{ lineIndex, startChar, endChar }` (the `lineText`
field merely repeats the line). -/
structure SMatch where
  lineIndex : Nat
  startChar : Nat
  endChar : Nat
deriving DecidableEq, Repr

/-- `performSearch(lines, term)`: clear the state and return 0 for terms
shorter than 3 characters, otherwise record every match of every line in
order and return the count. -/
def performSearch (lines : List (List Char)) (term : List Char) :
    List SMatch × Nat :=
  if term.length < 3 then ([], 0)
  else
    let ms := ((List.range lines.length).map (fun li =>
      (scanLine term (lines.getD li []) 0).map
        (fun q => SMatch.mk li q (q + term.length)))).flatten
    (ms, ms.length)

theorem scanLineF_sound (term : List Char) (hterm : 0 < term.length) :
    ∀ (fuel : Nat) (s : List Char) (pos : Nat),
      ∀ q ∈ scanLineF term fuel s pos,
        ∃ d, q = pos + d ∧ ciPref term (s.drop d) = true
  | 0, s, pos => by
    intro q hq
    exact absurd hq (List.not_mem_nil q)
  | fuel + 1, [], pos => by
    intro q hq
    exact absurd hq (List.not_mem_nil q)
  | fuel + 1, c :: rest, pos => by
    intro q hq
    by_cases hc : ciPref term (c :: rest) = true
    · rw [show scanLineF term (fuel + 1) (c :: rest) pos =
          pos :: scanLineF term fuel (List.drop (term.length - 1) rest)
            (pos + term.length) from by
        show (if ciPref term (c :: rest) then _ else _) = _
        rw [if_pos hc]] at hq
      rcases List.mem_cons.mp hq with rfl | hq2
      · exact ⟨0, by omega, hc⟩
      · obtain ⟨d, hd1, hd2⟩ := scanLineF_sound term hterm fuel _ _ q hq2
        refine ⟨term.length + d, by omega, ?_⟩
        have hdrop : (c :: rest).drop (term.length + d) =
            (List.drop (term.length - 1) rest).drop d := by
          obtain ⟨k, hk⟩ : ∃ k, term.length + d = k + 1 := ⟨term.length + d - 1, by omega⟩
          rw [hk]
          show rest.drop k = _
          rw [List.drop_drop]
          congr 1
          omega
        rw [hdrop]
        exact hd2
    · rw [show scanLineF term (fuel + 1) (c :: rest) pos =
          scanLineF term fuel rest (pos + 1) from by
        show (if ciPref term (c :: rest) then _ else _) = _
        rw [if_neg hc]] at hq
      obtain ⟨d, hd1, hd2⟩ := scanLineF_sound term hterm fuel _ _ q hq
      refine ⟨d + 1, by omega, ?_⟩
      show ciPref term (rest.drop d) = true
      exact hd2

theorem scanLineF_chain (term : List Char) :
    ∀ (fuel : Nat) (s : List Char) (pos : Nat),
      (∀ q ∈ scanLineF term fuel s pos, pos ≤ q) ∧
      List.Pairwise (fun a b => a + term.length ≤ b) (scanLineF term fuel s pos)
  | 0, s, pos => ⟨fun q hq => absurd hq (List.not_mem_nil q), List.Pairwise.nil⟩
  | fuel + 1, [], pos => ⟨fun q hq => absurd hq (List.not_mem_nil q), List.Pairwise.nil⟩
  | fuel + 1, c :: rest, pos => by
    by_cases hc : ciPref term (c :: rest) = true
    · rw [show scanLineF term (fuel + 1) (c :: rest) pos =
          pos :: scanLineF term fuel (List.drop (term.length - 1) rest)
            (pos + term.length) from by
        show (if ciPref term (c :: rest) then _ else _) = _
        rw [if_pos hc]]
      obtain ⟨hge, hpair⟩ := scanLineF_chain term fuel
        (List.drop (term.length - 1) rest) (pos + term.length)
      constructor
      · intro q hq
        rcases List.mem_cons.mp hq with rfl | hq2
        · exact le_refl q
        · have := hge q hq2
          omega
      · refine List.Pairwise.cons ?_ hpair
        intro q hq
        have := hge q hq
        omega
    · rw [show scanLineF term (fuel + 1) (c :: rest) pos =
          scanLineF term fuel rest (pos + 1) from by
        show (if ciPref term (c :: rest) then _ else _) = _
        rw [if_neg hc]]
      obtain ⟨hge, hpair⟩ := scanLineF_chain term fuel rest (pos + 1)
      exact ⟨fun q hq => by have := hge q hq; omega, hpair⟩

theorem scanLineF_complete (term : List Char) (hterm : 0 < term.length) :
    ∀ (fuel : Nat) (s : List Char) (pos : Nat), s.length ≤ fuel →
      ∀ d, ciPref term (s.drop d) = true →
        ∃ q ∈ scanLineF term fuel s pos, q ≤ pos + d ∧ pos + d < q + term.length
  | fuel, [], pos, hfuel, d => by
    intro hd
    rw [List.drop_nil] at hd
    cases term with
    | nil =>
      rw [List.length_nil] at hterm
      omega
    | cons t ts => exact absurd hd (by simp [ciPref])
  | 0, c :: rest, pos, hfuel, d => by
    intro _
    rw [List.length_cons] at hfuel
    omega
  | fuel + 1, c :: rest, pos, hfuel, d => by
    intro hd
    by_cases hc : ciPref term (c :: rest) = true
    · rw [show scanLineF term (fuel + 1) (c :: rest) pos =
          pos :: scanLineF term fuel (List.drop (term.length - 1) rest)
            (pos + term.length) from by
        show (if ciPref term (c :: rest) then _ else _) = _
        rw [if_pos hc]]
      by_cases hdlt : d < term.length
      · exact ⟨pos, List.mem_cons_self _ _, by omega, by omega⟩
      · have hdrop : (c :: rest).drop d =
            (List.drop (term.length - 1) rest).drop (d - term.length) := by
          obtain ⟨k, hk⟩ : ∃ k, d = k + 1 := ⟨d - 1, by omega⟩
          rw [hk]
          show rest.drop k = _
          rw [List.drop_drop]
          congr 1
          omega
        rw [hdrop] at hd
        have hlen : (List.drop (term.length - 1) rest).length ≤ fuel := by
          rw [List.length_drop]
          rw [List.length_cons] at hfuel
          omega
        obtain ⟨q, hq, hq1, hq2⟩ := scanLineF_complete term hterm fuel
          (List.drop (term.length - 1) rest) (pos + term.length) hlen (d - term.length) hd
        refine ⟨q, List.mem_cons_of_mem _ hq, by omega, by omega⟩
    · rw [show scanLineF term (fuel + 1) (c :: rest) pos =
          scanLineF term fuel rest (pos + 1) from by
        show (if ciPref term (c :: rest) then _ else _) = _
        rw [if_neg hc]]
      have hd0 : d ≠ 0 := by
        intro h0
        rw [h0, List.drop_zero] at hd
        exact hc hd
      have hdrop : (c :: rest).drop d = rest.drop (d - 1) := by
        obtain ⟨k, hk⟩ : ∃ k, d = k + 1 := ⟨d - 1, by omega⟩
        rw [hk]
        show rest.drop k = _
        congr 1
      rw [hdrop] at hd
      have hlen : rest.length ≤ fuel := by
        rw [List.length_cons] at hfuel
        omega
      obtain ⟨q, hq, hq1, hq2⟩ := scanLineF_complete term hterm fuel rest (pos + 1)
        hlen (d - 1) hd
      exact ⟨q, hq, by omega, by omega⟩

theorem performSearch_eq (lines : List (List Char)) (term : List Char)
    (h : ¬ term.length < 3) :
    performSearch lines term =
      (((List.range lines.length).map (fun li =>
          (scanLine term (lines.getD li []) 0).map
            (fun q => SMatch.mk li q (q + term.length)))).flatten,
       (((List.range lines.length).map (fun li =>
          (scanLine term (lines.getD li []) 0).map
            (fun q => SMatch.mk li q (q + term.length)))).flatten).length) := by
  simp only [performSearch, if_neg h]

/-- C3: For every list of lines and every search term: if the term has
fewer than 3 characters, `performSearch` clears all match state and returns 0;
otherwise it returns the count of recorded matches, each recorded match is a
case-insensitive occurrence of the term in its line with
`endChar = startChar + term.length`, the matches are pairwise ordered by
ascending `lineIndex` and, within a line, by ascending `startChar` without
overlap, and every case-insensitive occurrence of the term overlaps some
recorded match on its line (so exactly the non-overlapping occurrences are
recorded). -/
theorem C3_performSearch (lines : List (List Char)) (term : List Char) :
    (term.length < 3 → performSearch lines term = ([], 0)) ∧
    (3 ≤ term.length →
      (performSearch lines term).2 = (performSearch lines term).1.length ∧
      (∀ m ∈ (performSearch lines term).1,
        m.lineIndex < lines.length ∧
        m.endChar = m.startChar + term.length ∧
        ciPref term ((lines.getD m.lineIndex []).drop m.startChar) = true) ∧
      List.Pairwise (fun a b => a.lineIndex < b.lineIndex ∨
        (a.lineIndex = b.lineIndex ∧ a.endChar ≤ b.startChar))
        (performSearch lines term).1 ∧
      (∀ li, li < lines.length →
        ∀ d, ciPref term ((lines.getD li []).drop d) = true →
          ∃ m ∈ (performSearch lines term).1,
            m.lineIndex = li ∧ m.startChar ≤ d ∧ d < m.endChar)) := by
  constructor
  · intro hshort
    simp only [performSearch, if_pos hshort]
  · intro hterm3
    have hnlt : ¬ term.length < 3 := by omega
    have hterm : 0 < term.length := by omega
    rw [performSearch_eq lines term hnlt]
    refine ⟨rfl, ?_, ?_, ?_⟩
    · intro m hm
      rw [List.mem_flatten] at hm
      obtain ⟨l, hl, hml⟩ := hm
      rw [List.mem_map] at hl
      obtain ⟨li, hli, rfl⟩ := hl
      rw [List.mem_map] at hml
      obtain ⟨q, hq, rfl⟩ := hml
      have hli2 := List.mem_range.mp hli
      obtain ⟨d, hd1, hd2⟩ := scanLineF_sound term hterm
        (lines.getD li []).length (lines.getD li []) 0 q hq
      refine ⟨hli2, rfl, ?_⟩
      have hqd : q = d := by omega
      rw [hqd]
      exact hd2
    · rw [List.pairwise_flatten]
      constructor
      · intro l hl
        rw [List.mem_map] at hl
        obtain ⟨li, hli, rfl⟩ := hl
        rw [List.pairwise_map]
        refine List.Pairwise.imp ?_
          (scanLineF_chain term (lines.getD li []).length (lines.getD li []) 0).2
        intro a b hab
        exact Or.inr ⟨rfl, hab⟩
      · rw [List.pairwise_map]
        refine List.Pairwise.imp ?_ (List.pairwise_lt_range lines.length)
        intro li₁ li₂ hlt x hx y hy
        rw [List.mem_map] at hx hy
        obtain ⟨qx, _, rfl⟩ := hx
        obtain ⟨qy, _, rfl⟩ := hy
        exact Or.inl hlt
    · intro li hli d hd
      obtain ⟨q, hq, hq1, hq2⟩ := scanLineF_complete term hterm
        (lines.getD li []).length (lines.getD li []) 0 (le_refl _) d hd
      refine ⟨SMatch.mk li q (q + term.length), ?_, rfl,
        show q ≤ d by omega, show d < q + term.length by omega⟩
      rw [List.mem_flatten]
      refine ⟨(scanLine term (lines.getD li []) 0).map
        (fun q => SMatch.mk li q (q + term.length)), ?_, ?_⟩
      · rw [List.mem_map]
        exact ⟨li, List.mem_range.mpr hli, rfl⟩
      · rw [List.mem_map]
        exact ⟨q, hq, rfl⟩

/-! ### Embeddings loading (claim C9), from `_loadEmbeddings`

The fetch response is modelled after it has been received and its body parsed:
`ok`/`status` from the HTTP layer, `contentType` the (optional) content-type
header, and `body` the parsed JSON document (`none` models a null/falsy
document).  A raw item's `embedding` is `none` when the field is not an array
and its `verseIndex` is `none` when the field is not a number; an absent or
zero `embeddingSize` in the document is modelled as `0` (both are falsy in the
source's `data.embeddingSize || inferredSize`). -/

structure RawItem where
  embedding : Option (List ℚ)
  verseIndex : Option Int
deriving DecidableEq, Repr

structure EmbDoc where
  items : Option (List RawItem)
  embeddingSize : Int
deriving DecidableEq, Repr

structure FetchResponse where
  ok : Bool
  status : Nat
  contentType : Option (List Char)
  body : Option EmbDoc
deriving DecidableEq, Repr

inductive LoadErr where
  | missing
  | fetch_failed
  | invalid_format
deriving DecidableEq, Repr

/-- `haystack.includes(needle)` on strings: some suffix of `s` starts with
`pat`. -/
def strIncl (pat s : List Char) : Bool :=
  (List.range (s.length + 1)).any (fun i => pat.isPrefixOf (s.drop i))

def jsonCT : List Char := "application/json".toList

/-- `data.items.filter((item) => Array.isArray(item.embedding) && typeof
item.verseIndex === 'number')`. -/
def rawItemsOf (items : List RawItem) : List RawItem :=
  items.filter (fun it => it.embedding.isSome && it.verseIndex.isSome)

/-- `rawItems.length > 0 ? rawItems[0].embedding.length : 0`. -/
def inferredSizeOf : List RawItem → Int
  | [] => 0
  | it :: _ => ((it.embedding.getD []).length : Int)

/-- `this.embeddingSize = data.embeddingSize || inferredSize`. -/
def resolvedSizeOf (d : EmbDoc) (items : List RawItem) : Int :=
  if d.embeddingSize ≠ 0 then d.embeddingSize
  else inferredSizeOf (rawItemsOf items)

/-- `rawItems.filter((item) => item.embedding.length === this.embeddingSize)`. -/
def validItemsOf (items : List RawItem) (size : Int) : List RawItem :=
  (rawItemsOf items).filter
    (fun it => decide (((it.embedding.getD []).length : Int) = size))

/-- `this.verseIndices[i] = item.verseIndex` over the packing loop. -/
def verseIndicesOf (items : List RawItem) (size : Int) : List Int :=
  (validItemsOf items size).map (fun it => it.verseIndex.getD 0)

/-- `this.embeddingsPacked.set(item.embedding, i * this.embeddingSize)` over
the packing loop: with every kept embedding exactly `size` long, the writes at
offsets `i * size` lay the embeddings out contiguously in order. -/
def packedOf (items : List RawItem) (size : Int) : List ℚ :=
  (validItemsOf items size).flatMap (fun it => it.embedding.getD [])

/-- `this.verseIndexToRow.set(item.verseIndex, i)` over the packing loop:
later rows overwrite earlier ones holding the same verseIndex, exactly as
`Map.set` does. -/
def rowMapOf (vs : List Int) : Int → Option Nat :=
  (List.range vs.length).foldl
    (fun m k => fun w => if w = vs.getD k 0 then some k else m w)
    (fun _ => none)

/-- `_loadEmbeddings`, from the fetch response to either a thrown error code
or the populated packed state. -/
def loadEmbeddings : FetchResponse → Except LoadErr SearchState
  | ⟨false, status, _, _⟩ =>
    Except.error (if status = 404 then LoadErr.missing else LoadErr.fetch_failed)
  | ⟨true, _, ct, body⟩ =>
    if strIncl jsonCT (ct.getD []) = false then
      Except.error LoadErr.invalid_format
    else
      match body with
      | none => Except.error LoadErr.invalid_format
      | some d =>
        match d.items with
        | none => Except.error LoadErr.invalid_format
        | some items =>
          if resolvedSizeOf d items ≤ 0 then
            Except.error LoadErr.invalid_format
          else
            Except.ok ⟨some (packedOf items (resolvedSizeOf d items)),
              some (verseIndicesOf items (resolvedSizeOf d items)),
              (resolvedSizeOf d items).toNat,
              rowMapOf (verseIndicesOf items (resolvedSizeOf d items))⟩

theorem mem_validItemsOf (items : List RawItem) (size : Int) (it : RawItem) :
    it ∈ validItemsOf items size ↔
      it ∈ items ∧ it.embedding.isSome = true ∧ it.verseIndex.isSome = true ∧
        ((it.embedding.getD []).length : Int) = size := by
  simp only [validItemsOf, rawItemsOf, List.mem_filter, Bool.and_eq_true,
    decide_eq_true_eq]
  tauto

theorem packed_block (L : Nat) :
    ∀ (l : List RawItem), (∀ it ∈ l, (it.embedding.getD []).length = L) →
      ∀ i, i < l.length →
        ((l.flatMap (fun it => it.embedding.getD [])).drop (i * L)).take L =
          (l.getD i ⟨none, none⟩).embedding.getD []
  | [], _, i, hi => by simp at hi
  | it :: rest, hlen, 0, _ => by
    rw [List.flatMap_cons, Nat.zero_mul, List.drop_zero]
    exact List.take_left' (hlen it (List.mem_cons_self it rest))
  | it :: rest, hlen, i + 1, hi => by
    rw [List.flatMap_cons]
    have h1 : (i + 1) * L = (it.embedding.getD []).length + i * L := by
      rw [hlen it (List.mem_cons_self it rest)]
      ring
    rw [h1, List.drop_append]
    have hrec := packed_block L rest
      (fun x hx => hlen x (List.mem_cons_of_mem _ hx)) i
      (by rw [List.length_cons] at hi; omega)
    rw [hrec]
    rfl

theorem rm_fold_sound (vs : List Int) :
    ∀ (idxs : List Nat) (m0 : Int → Option Nat) (v : Int) (j : Nat),
      (idxs.foldl (fun m k => fun w => if w = vs.getD k 0 then some k else m w)
        m0) v = some j →
      (j ∈ idxs ∧ vs.getD j 0 = v) ∨ m0 v = some j
  | [], _, _, _, h => Or.inr h
  | i :: rest, m0, v, j, h => by
    rw [List.foldl_cons] at h
    rcases rm_fold_sound vs rest _ v j h with h1 | h2
    · exact Or.inl ⟨List.mem_cons_of_mem _ h1.1, h1.2⟩
    · have h2' : (if v = vs.getD i 0 then some i else m0 v) = some j := h2
      by_cases hv : v = vs.getD i 0
      · rw [if_pos hv] at h2'
        refine Or.inl ?_
        rw [← Option.some.inj h2']
        exact ⟨List.mem_cons_self i rest, hv.symm⟩
      · rw [if_neg hv] at h2'
        exact Or.inr h2'

theorem rm_fold_isSome (vs : List Int) :
    ∀ (idxs : List Nat) (m0 : Int → Option Nat) (v : Int),
      (m0 v).isSome = true →
      ((idxs.foldl (fun m k => fun w => if w = vs.getD k 0 then some k else m w)
        m0) v).isSome = true
  | [], _, _, h => h
  | i :: rest, m0, v, h => by
    rw [List.foldl_cons]
    refine rm_fold_isSome vs rest _ v ?_
    show (if v = vs.getD i 0 then some i else m0 v).isSome = true
    by_cases hv : v = vs.getD i 0
    · rw [if_pos hv]
      rfl
    · rw [if_neg hv]
      exact h

theorem rm_fold_isSome_mem (vs : List Int) :
    ∀ (idxs : List Nat) (m0 : Int → Option Nat) (v : Int) (i : Nat),
      i ∈ idxs → vs.getD i 0 = v →
      ((idxs.foldl (fun m k => fun w => if w = vs.getD k 0 then some k else m w)
        m0) v).isSome = true
  | [], _, _, i, hmem, _ => absurd hmem (List.not_mem_nil i)
  | i' :: rest, m0, v, i, hmem, hv => by
    rw [List.foldl_cons]
    rcases List.mem_cons.mp hmem with rfl | hrest
    · refine rm_fold_isSome vs rest _ v ?_
      show (if v = vs.getD i 0 then some i else m0 v).isSome = true
      rw [if_pos hv.symm]
      rfl
    · exact rm_fold_isSome_mem vs rest _ v i hrest hv

theorem rowMapOf_sound (vs : List Int) (v : Int) (j : Nat)
    (h : rowMapOf vs v = some j) : j < vs.length ∧ vs.getD j 0 = v := by
  rcases rm_fold_sound vs (List.range vs.length) (fun _ => none) v j h with h1 | h2
  · exact ⟨List.mem_range.mp h1.1, h1.2⟩
  · exact Option.noConfusion h2

theorem getD_int_eq_getElem (vs : List Int) (i : Nat) (hi : i < vs.length) :
    vs.getD i 0 = vs[i] := by
  rw [List.getD_eq_getElem?_getD, List.getElem?_eq_getElem hi, Option.getD_some]

theorem rowMapOf_nodup (vs : List Int) (hnd : vs.Nodup) (i : Nat)
    (hi : i < vs.length) : rowMapOf vs (vs.getD i 0) = some i := by
  have hsome : (rowMapOf vs (vs.getD i 0)).isSome = true :=
    rm_fold_isSome_mem vs (List.range vs.length) (fun _ => none) (vs.getD i 0) i
      (List.mem_range.mpr hi) rfl
  obtain ⟨j, hj⟩ := Option.isSome_iff_exists.mp hsome
  obtain ⟨hjlen, hjv⟩ := rowMapOf_sound vs _ j hj
  have hge : vs[j] = vs[i] := by
    rw [← getD_int_eq_getElem vs j hjlen, ← getD_int_eq_getElem vs i hi]
    exact hjv
  have hji : j = i := (hnd.getElem_inj_iff).mp hge
  rw [hji] at hj
  exact hj

theorem C3_witness :
    (['a', 'b'] : List Char).length < 3 ∧
    performSearch [['a', 'b', 'a', 'b', 'a']] ['a', 'b'] = ([], 0) ∧
    3 ≤ (['a', 'b', 'a'] : List Char).length ∧
    (performSearch [['a', 'b', 'a', 'b', 'a']] ['a', 'b', 'a']).2 =
      (performSearch [['a', 'b', 'a', 'b', 'a']] ['a', 'b', 'a']).1.length :=
  ⟨by decide,
   (C3_performSearch [['a', 'b', 'a', 'b', 'a']] ['a', 'b']).1 (by decide),
   by decide,
   ((C3_performSearch [['a', 'b', 'a', 'b', 'a']] ['a', 'b', 'a']).2 (by decide)).1⟩

/-- C9 (amended: the `verseIndexToRow` clause holds provided the included
verseIndices are pairwise distinct; with duplicates `Map.set` keeps only the
last row): the load fails with `missing` exactly on a non-OK 404 response,
with `fetch_failed` exactly on any other non-OK response, and with
`invalid_format` exactly when the content type is not JSON, the document or
its `items` array is absent, or the resolved embedding size is zero or
negative; on success the malformed items are skipped, the well-formed items
are packed in order into the flat buffer (row `i` occupies the `size`-wide
block at offset `i * size`), `verseIndices` lists their verse indices in
order, and — for pairwise-distinct verse indices — `verseIndexToRow` maps
each included verseIndex to its row. -/
theorem C9_loadEmbeddings (r : FetchResponse) :
    (loadEmbeddings r = Except.error LoadErr.missing ↔
      r.ok = false ∧ r.status = 404) ∧
    (loadEmbeddings r = Except.error LoadErr.fetch_failed ↔
      r.ok = false ∧ r.status ≠ 404) ∧
    (loadEmbeddings r = Except.error LoadErr.invalid_format ↔
      r.ok = true ∧
        (strIncl jsonCT (r.contentType.getD []) = false ∨
         r.body = none ∨
         (∃ d, r.body = some d ∧ d.items = none) ∨
         (∃ d items, r.body = some d ∧ d.items = some items ∧
            resolvedSizeOf d items ≤ 0))) ∧
    (∀ st, loadEmbeddings r = Except.ok st →
      ∃ d items, r.body = some d ∧ d.items = some items ∧
        0 < resolvedSizeOf d items ∧
        st.embeddingSize = (resolvedSizeOf d items).toNat ∧
        st.verseIndices = some (verseIndicesOf items (resolvedSizeOf d items)) ∧
        st.embeddingsPacked = some (packedOf items (resolvedSizeOf d items)) ∧
        st.verseIndexToRow = rowMapOf (verseIndicesOf items (resolvedSizeOf d items)) ∧
        List.Sublist (validItemsOf items (resolvedSizeOf d items)) items ∧
        (∀ it, it ∈ validItemsOf items (resolvedSizeOf d items) ↔
          it ∈ items ∧ it.embedding.isSome = true ∧ it.verseIndex.isSome = true ∧
            ((it.embedding.getD []).length : Int) = resolvedSizeOf d items) ∧
        (∀ i, i < (validItemsOf items (resolvedSizeOf d items)).length →
          ((packedOf items (resolvedSizeOf d items)).drop
              (i * (resolvedSizeOf d items).toNat)).take
              (resolvedSizeOf d items).toNat =
            ((validItemsOf items (resolvedSizeOf d items)).getD i
              ⟨none, none⟩).embedding.getD []) ∧
        ((verseIndicesOf items (resolvedSizeOf d items)).Nodup →
          ∀ i, i < (verseIndicesOf items (resolvedSizeOf d items)).length →
            st.verseIndexToRow
              ((verseIndicesOf items (resolvedSizeOf d items)).getD i 0) =
              some i)) := by
  obtain ⟨ok, status, ct, body⟩ := r
  cases ok with
  | false =>
    by_cases h404 : status = 404
    · have hred : loadEmbeddings ⟨false, status, ct, body⟩ =
          Except.error LoadErr.missing := by
        show Except.error (if status = 404 then LoadErr.missing
          else LoadErr.fetch_failed) = _
        rw [if_pos h404]
      refine ⟨by rw [hred]; simp [h404], by rw [hred]; simp [h404],
        by rw [hred]; simp, ?_⟩
      intro st hst
      rw [hred] at hst
      exact Except.noConfusion hst
    · have hred : loadEmbeddings ⟨false, status, ct, body⟩ =
          Except.error LoadErr.fetch_failed := by
        show Except.error (if status = 404 then LoadErr.missing
          else LoadErr.fetch_failed) = _
        rw [if_neg h404]
      refine ⟨by rw [hred]; simp [h404], by rw [hred]; simp [h404],
        by rw [hred]; simp, ?_⟩
      intro st hst
      rw [hred] at hst
      exact Except.noConfusion hst
  | true =>
    by_cases hct : strIncl jsonCT (ct.getD []) = false
    · have hred : loadEmbeddings ⟨true, status, ct, body⟩ =
          Except.error LoadErr.invalid_format := by
        show (if strIncl jsonCT (ct.getD []) = false then
          Except.error LoadErr.invalid_format else _) = _
        rw [if_pos hct]
      refine ⟨by rw [hred]; simp, by rw [hred]; simp, ?_, ?_⟩
      · rw [hred]
        constructor
        · intro _
          exact ⟨rfl, Or.inl hct⟩
        · intro _
          rfl
      · intro st hst
        rw [hred] at hst
        exact Except.noConfusion hst
    · cases body with
      | none =>
        have hred : loadEmbeddings ⟨true, status, ct, none⟩ =
            Except.error LoadErr.invalid_format := by
          show (if strIncl jsonCT (ct.getD []) = false then
            Except.error LoadErr.invalid_format else _) = _
          rw [if_neg hct]
        refine ⟨by rw [hred]; simp, by rw [hred]; simp, ?_, ?_⟩
        · rw [hred]
          constructor
          · intro _
            exact ⟨rfl, Or.inr (Or.inl rfl)⟩
          · intro _
            rfl
        · intro st hst
          rw [hred] at hst
          exact Except.noConfusion hst
      | some d =>
        obtain ⟨ditems, dsize⟩ := d
        cases ditems with
        | none =>
          have hred : loadEmbeddings ⟨true, status, ct, some ⟨none, dsize⟩⟩ =
              Except.error LoadErr.invalid_format := by
            show (if strIncl jsonCT (ct.getD []) = false then
              Except.error LoadErr.invalid_format else _) = _
            rw [if_neg hct]
          refine ⟨by rw [hred]; simp, by rw [hred]; simp, ?_, ?_⟩
          · rw [hred]
            constructor
            · intro _
              exact ⟨rfl, Or.inr (Or.inr (Or.inl ⟨⟨none, dsize⟩, rfl, rfl⟩))⟩
            · intro _
              rfl
          · intro st hst
            rw [hred] at hst
            exact Except.noConfusion hst
        | some items =>
          by_cases hsz : resolvedSizeOf ⟨some items, dsize⟩ items ≤ 0
          · have hred : loadEmbeddings
                ⟨true, status, ct, some ⟨some items, dsize⟩⟩ =
                Except.error LoadErr.invalid_format := by
              show (if strIncl jsonCT (ct.getD []) = false then
                Except.error LoadErr.invalid_format else _) = _
              rw [if_neg hct]
              show (if resolvedSizeOf ⟨some items, dsize⟩ items ≤ 0 then
                Except.error LoadErr.invalid_format else _) = _
              rw [if_pos hsz]
            refine ⟨by rw [hred]; simp, by rw [hred]; simp, ?_, ?_⟩
            · rw [hred]
              constructor
              · intro _
                exact ⟨rfl, Or.inr (Or.inr (Or.inr
                  ⟨⟨some items, dsize⟩, items, rfl, rfl, hsz⟩))⟩
              · intro _
                rfl
            · intro st hst
              rw [hred] at hst
              exact Except.noConfusion hst
          · have hred : loadEmbeddings
                ⟨true, status, ct, some ⟨some items, dsize⟩⟩ =
                Except.ok ⟨some (packedOf items
                    (resolvedSizeOf ⟨some items, dsize⟩ items)),
                  some (verseIndicesOf items
                    (resolvedSizeOf ⟨some items, dsize⟩ items)),
                  (resolvedSizeOf ⟨some items, dsize⟩ items).toNat,
                  rowMapOf (verseIndicesOf items
                    (resolvedSizeOf ⟨some items, dsize⟩ items))⟩ := by
              show (if strIncl jsonCT (ct.getD []) = false then
                Except.error LoadErr.invalid_format else _) = _
              rw [if_neg hct]
              show (if resolvedSizeOf ⟨some items, dsize⟩ items ≤ 0 then
                Except.error LoadErr.invalid_format else _) = _
              rw [if_neg hsz]
            refine ⟨by rw [hred]; simp, by rw [hred]; simp, ?_, ?_⟩
            · rw [hred]
              constructor
              · intro h
                exact Except.noConfusion h
              · rintro ⟨_, hc | hb | ⟨d', hd', hni⟩ | ⟨d', items', hd', hi', hsz'⟩⟩
                · exact absurd hc hct
                · exact Option.noConfusion hb
                · rw [← Option.some.inj hd'] at hni
                  exact Option.noConfusion hni
                · rw [← Option.some.inj hd'] at hi' hsz'
                  rw [← Option.some.inj hi'] at hsz'
                  exact absurd hsz' hsz
            · intro st hst
              rw [hred] at hst
              have hstEq := Except.ok.inj hst
              rw [← hstEq]
              refine ⟨⟨some items, dsize⟩, items, rfl, rfl, by omega, rfl, rfl,
                rfl, rfl, (List.filter_sublist _).trans (List.filter_sublist _),
                fun it => mem_validItemsOf items _ it, ?_, ?_⟩
              · intro i hi
                refine packed_block (resolvedSizeOf ⟨some items, dsize⟩ items).toNat
                  (validItemsOf items (resolvedSizeOf ⟨some items, dsize⟩ items))
                  ?_ i hi
                intro x hx
                have h4 := ((mem_validItemsOf items _ x).mp hx).2.2.2
                omega
              · intro hnd i hi
                exact rowMapOf_nodup _ hnd i hi

def c9dupResp : FetchResponse :=
  ⟨true, 200, some jsonCT,
    some ⟨some [⟨some [1], some 7⟩, ⟨some [2], some 7⟩], 0⟩⟩

/-- C9 counterexample: with two well-formed items sharing verseIndex 7 both
are packed (rows 0 and 1), but `Map.set` overwrites, so `verseIndexToRow`
sends 7 to row 1 and cannot map row 0's included verseIndex to its row. -/
theorem C9_counterexample :
    loadEmbeddings c9dupResp =
      Except.ok ⟨some [1, 2], some [7, 7], 1, rowMapOf [7, 7]⟩ ∧
    ([7, 7] : List Int).getD 0 0 = 7 ∧
    rowMapOf [7, 7] 7 = some 1 ∧ some 1 ≠ (some 0 : Option Nat) :=
  ⟨rfl, rfl, by decide, by decide⟩

def c9okResp : FetchResponse :=
  ⟨true, 200, some jsonCT,
    some ⟨some [⟨some [1], some 7⟩, ⟨none, some 8⟩, ⟨some [2], some 9⟩], 0⟩⟩

def c9okState : SearchState :=
  ⟨some [1, 2], some [7, 9], 1, rowMapOf [7, 9]⟩

theorem C9_witness :
    (loadEmbeddings c9okResp = Except.error LoadErr.missing ↔
      c9okResp.ok = false ∧ c9okResp.status = 404) ∧
    (∃ d items, c9okResp.body = some d ∧ d.items = some items ∧
      0 < resolvedSizeOf d items ∧
      c9okState.embeddingSize = (resolvedSizeOf d items).toNat ∧
      c9okState.verseIndices =
        some (verseIndicesOf items (resolvedSizeOf d items)) ∧
      c9okState.embeddingsPacked =
        some (packedOf items (resolvedSizeOf d items)) ∧
      c9okState.verseIndexToRow =
        rowMapOf (verseIndicesOf items (resolvedSizeOf d items)) ∧
      List.Sublist (validItemsOf items (resolvedSizeOf d items)) items ∧
      (∀ it, it ∈ validItemsOf items (resolvedSizeOf d items) ↔
        it ∈ items ∧ it.embedding.isSome = true ∧ it.verseIndex.isSome = true ∧
          ((it.embedding.getD []).length : Int) = resolvedSizeOf d items) ∧
      (∀ i, i < (validItemsOf items (resolvedSizeOf d items)).length →
        ((packedOf items (resolvedSizeOf d items)).drop
            (i * (resolvedSizeOf d items).toNat)).take
            (resolvedSizeOf d items).toNat =
          ((validItemsOf items (resolvedSizeOf d items)).getD i
            ⟨none, none⟩).embedding.getD []) ∧
      ((verseIndicesOf items (resolvedSizeOf d items)).Nodup →
        ∀ i, i < (verseIndicesOf items (resolvedSizeOf d items)).length →
          c9okState.verseIndexToRow
            ((verseIndicesOf items (resolvedSizeOf d items)).getD i 0) =
            some i)) :=
  ⟨(C9_loadEmbeddings c9okResp).1,
   (C9_loadEmbeddings c9okResp).2.2.2 c9okState rfl⟩

end BoMViz
